import Mathlib

/-!
Verification of the `go-test-teamcity` converter (`src/main.go`).

The program is a single-pass stream transformer: it reads lines of `go test -v`
output and emits TeamCity service messages.  We shallowly embed the program:

* strings are modelled as `List Char` (`Str`);
* the wall clock (`getNow`) is modelled as a monotone counter: every call to
  `getNow` returns the current counter value (a `Nat` standing in for the
  formatted timestamp string) and advances it;
* the output byte sink is modelled as a list of `OutLine` values, one per
  `Fprintf`/`Fprint` call, carrying exactly the data the program interpolates
  into the printed line (names and details already escaped, as in the source);
* Go's `map[string]*Test` plus pointer mutation is modelled as an
  insertion-ordered association list together with a current-record register
  that is written through to the list on every mutation (in the source the
  current record is a pointer into the map, and it is always the record most
  recently fetched from or inserted into the map, so the two views coincide);
  the end-of-stream `for _, t := range tests` iteration is modelled in
  insertion order (Go's map order is unspecified).
-/

abbrev Str := List Char

/-- `strings.HasPrefix s pat`: `pat` is a prefix of `s`. -/
def hasPfx (s pat : Str) : Bool :=
  match s, pat with
  | _, [] => true
  | [], _ :: _ => false
  | x :: xs, c :: cs => x = c && hasPfx xs cs

/-- `strings.TrimPrefix s pat`: drop `pat` from the front of `s` when present. -/
def trimPfx (s pat : Str) : Str :=
  if hasPfx s pat then s.drop pat.length else s

/-- Strip an exact literal from the front of a string, returning the remainder. -/
def stripLit (lit s : Str) : Option Str :=
  match lit, s with
  | [], s => some s
  | _ :: _, [] => none
  | c :: cs, x :: xs => if x = c then stripLit cs xs else none

/-- RE2's Perl class `\s`, i.e. `[\t\n\f\r ]`. -/
def isWS (c : Char) : Bool :=
  c = '\t' || c = '\n' || c = '\x0c' || c = '\r' || c = ' '

/-- The character class `[a-zA-Z_]` that starts a test name in both regexes. -/
def isNameStart (c : Char) : Bool :=
  (decide ('a' ≤ c) && decide (c ≤ 'z')) ||
  (decide ('A' ≤ c) && decide (c ≤ 'Z')) || c = '_'

/-- The character class `[\.\ds]` of the duration capture. -/
def isDurChar (c : Char) : Bool := c = '.' || c.isDigit || c = 's'

/--
`run.FindStringSubmatch` for `run = ^=== RUN\s+([a-zA-Z_]\S*)`: returns the
captured name.  The regex is anchored and every quantifier is forced (each
greedy run is followed by a character outside its class), so a direct
deterministic parse is exact.
-/
def matchRun (l : Str) : Option Str :=
  match stripLit "=== RUN".data l with
  | none => none
  | some r =>
    let ws := r.takeWhile isWS
    let r2 := r.dropWhile isWS
    if ws = [] then none
    else
      match r2 with
      | [] => none
      | c :: cs =>
        if isNameStart c then some (c :: cs.takeWhile (fun x => !isWS x)) else none

/-- The four captures of the `end` regex. -/
structure EndMatch where
  indent : Str
  status : Str
  name : Str
  durText : Str
deriving DecidableEq

/-- The alternation `(PASS|SKIP|FAIL)`. -/
def matchStatus (r : Str) : Option (Str × Str) :=
  match stripLit "PASS".data r with
  | some rest => some ("PASS".data, rest)
  | none =>
    match stripLit "SKIP".data r with
    | some rest => some ("SKIP".data, rest)
    | none =>
      match stripLit "FAIL".data r with
      | some rest => some ("FAIL".data, rest)
      | none => none

/--
`end.FindStringSubmatch` for
`end = ^(\s*)--- (PASS|SKIP|FAIL):\s+([a-zA-Z_]\S*) \((-?[\.\ds]+)\)`.
As with `matchRun`, every greedy quantifier is followed by a character outside
its class, so the deterministic maximal-munch parse matches RE2 exactly.
-/
def matchEnd (l : Str) : Option EndMatch :=
  let ind := l.takeWhile isWS
  let r0 := l.dropWhile isWS
  match stripLit "--- ".data r0 with
  | none => none
  | some r1 =>
    match matchStatus r1 with
    | none => none
    | some (st, r2) =>
      match stripLit ":".data r2 with
      | none => none
      | some r3 =>
        let ws := r3.takeWhile isWS
        let r4 := r3.dropWhile isWS
        if ws = [] then none
        else
          match r4 with
          | [] => none
          | c :: cs =>
            if isNameStart c then
              let nm := c :: cs.takeWhile (fun x => !isWS x)
              let r5 := cs.dropWhile (fun x => !isWS x)
              match stripLit " (".data r5 with
              | none => none
              | some r6 =>
                let neg : Str × Str :=
                  match r6 with
                  | '-' :: rest => (['-'], rest)
                  | _ => ([], r6)
                let ds := neg.2.takeWhile isDurChar
                let r8 := neg.2.dropWhile isDurChar
                if ds = [] then none
                else
                  match r8 with
                  | ')' :: _ => some ⟨ind, st, nm, neg.1 ++ ds⟩
                  | _ => none
            else none

/-- `pkg.MatchString` for `pkg = ^(ok|PASS|FAIL|exit status|Found)` (the code
only tests the match for non-nilness, so a boolean suffices). -/
def matchPkg (l : Str) : Bool :=
  hasPfx l "ok".data || hasPfx l "PASS".data || hasPfx l "FAIL".data ||
  hasPfx l "exit status".data || hasPfx l "Found".data

/-- `race.MatchString` for `race = ^WARNING: DATA RACE`. -/
def matchRace (l : Str) : Bool :=
  hasPfx l "WARNING: DATA RACE".data

/--
`strings.Replace(s, string c, r, -1)` for a single-character pattern `c`:
every occurrence of `c` is replaced by `r`.
-/
def replChar (c : Char) (r : Str) : Str → Str
  | [] => []
  | x :: xs => (if x = c then r else [x]) ++ replChar c r xs

/-- The `escape` function of the source: the six `strings.Replace` calls in
source order (`|`, `\n`, `\r`, `'`, `]`, `[`). -/
def escape (s : Str) : Str :=
  let s1 := replChar '|' "||".data s
  let s2 := replChar '\n' "|n".data s1
  let s3 := replChar '\r' "|n".data s2
  let s4 := replChar '\'' ("|".data ++ ['\'']) s3
  let s5 := replChar ']' "|]".data s4
  replChar '[' "|[".data s5

/-- `strings.Join(lines, "\n")`. -/
def joinLines : List Str → Str
  | [] => []
  | [l] => l
  | l :: ls => l ++ '\n' :: joinLines ls

/-- The source's `escapeLines`. -/
def escapeLines (lines : List Str) : Str := escape (joinLines lines)

/--
Modelled from the spec: the spec's *escaping round-trip* property speaks of
"conceptually unescaping"; no unescape function exists in the source, so we
define the evident decoder for the escape code: `|x` decodes to `\n` when
`x = n` and to `x` itself otherwise (covering `||`, `|'`, `|]`, `|[`).
-/
def unescChar (c : Char) : Char := if c = 'n' then '\n' else c

/-- Modelled from the spec: the decoder matching `escape` (see `unescChar`). -/
def unescape : Str → Str
  | [] => []
  | '|' :: c :: rest => unescChar c :: unescape rest
  | c :: rest => c :: unescape rest

/-! ### `time.ParseDuration`

The duration text captured by the `end` regex is handed to Go's
`time.ParseDuration`, whose error is discarded (`test.Duration, _ = ...`), so
a parse failure leaves the zero duration.  We model `ParseDuration` (a value in
nanoseconds, `none` on error) following its implementation.  The fractional
contribution is computed by Go in `float64`; we model it with exact natural
division `f * unit / scale`, which agrees with the float computation on every
value exercised in this development.  The final accumulation check is modelled
as `d ≤ 2^63 - 1`, folding Go's slightly looser boundary handling for
`-2^63` into an error; none of the claims exercises that boundary. -/

def maxI64 : Nat := 9223372036854775807

/-- Go's `leadingInt`: parse a leading run of digits, erroring on overflow. -/
def leadingIntAux (x : Nat) : Str → Option (Nat × Str)
  | [] => some (x, [])
  | c :: cs =>
    if c.isDigit then
      if x > maxI64 / 10 then none
      else
        let x2 := x * 10 + (c.toNat - '0'.toNat)
        if x2 > maxI64 then none
        else leadingIntAux x2 cs
    else some (x, c :: cs)

/-- Go's `leadingFraction`: digits after the decimal point; further digits are
consumed but ignored once the accumulator would overflow. -/
def leadingFracAux (x scale : Nat) (ovfl : Bool) : Str → Nat × Nat × Str
  | [] => (x, scale, [])
  | c :: cs =>
    if c.isDigit then
      if ovfl then leadingFracAux x scale true cs
      else if x > maxI64 / 10 then leadingFracAux x scale true cs
      else
        let y := x * 10 + (c.toNat - '0'.toNat)
        if y > maxI64 then leadingFracAux x scale true cs
        else leadingFracAux y (scale * 10) ovfl cs
    else (x, scale, c :: cs)

/-- Go's `unitMap` (nanoseconds per unit). -/
def unitNs (u : Str) : Option Nat :=
  if u = "ns".data then some 1
  else if u = "us".data then some 1000
  else if u = "µs".data then some 1000
  else if u = "μs".data then some 1000
  else if u = "ms".data then some 1000000
  else if u = "s".data then some 1000000000
  else if u = "m".data then some 60000000000
  else if u = "h".data then some 3600000000000
  else none

/--
The main loop of `ParseDuration`: repeatedly parse `int[.frac]unit`.  Each
pass consumes at least one character (a unit is non-empty and so is the number
part), so the fuel `s.length + 1` supplied by `goParseDuration` is never
exhausted; the fuel-0 branch is unreachable.
-/
def durLoop : Nat → Str → Nat → Option Nat
  | _, [], d => some d
  | 0, _ :: _, _ => none
  | fuel + 1, s, d =>
    match s with
    | [] => some d
    | c0 :: _ =>
      if !(c0 = '.' || c0.isDigit) then none
      else
        match leadingIntAux 0 s with
        | none => none
        | some (v, s2) =>
          let pre : Bool := s2.length ≠ s.length
          let fr : Nat × Nat × Str × Bool :=
            match s2 with
            | '.' :: s2t =>
              let q := leadingFracAux 0 1 false s2t
              (q.1, q.2.1, q.2.2, decide (q.2.2.length ≠ s2t.length))
            | _ => (0, 1, s2, false)
          if !pre && !fr.2.2.2 then none
          else
            let u := fr.2.2.1.takeWhile (fun c => !(c = '.' || c.isDigit))
            let s4 := fr.2.2.1.dropWhile (fun c => !(c = '.' || c.isDigit))
            if u = [] then none
            else
              match unitNs u with
              | none => none
              | some unit =>
                if fr.1 > 0 && decide (v > maxI64 / unit) then none
                else if fr.1 = 0 && decide (v > maxI64 / unit) then none
                else
                  let v2 := v * unit
                  let v3 := if fr.1 > 0 then v2 + fr.1 * unit / fr.2.1 else v2
                  if v3 > maxI64 then none
                  else
                    let d2 := d + v3
                    if d2 > maxI64 then none
                    else durLoop fuel s4 d2

/-- `time.ParseDuration`, in nanoseconds (see the section comment). -/
def goParseDuration (s : Str) : Option Int :=
  let sgn : Bool × Str :=
    match s with
    | '-' :: rest => (true, rest)
    | '+' :: rest => (false, rest)
    | _ => (false, s)
  if sgn.2 = "0".data then some 0
  else if sgn.2 = [] then none
  else
    match durLoop (sgn.2.length + 1) sgn.2 0 with
    | none => none
    | some d => if sgn.1 then some (-(d : Int)) else some (d : Int)

/-! ### The data model -/

/-- The `Test` struct of the source (`Start` is a clock value, `Duration` is
in nanoseconds). -/
structure GoTest where
  start : Nat
  name : Str
  output : Str
  details : List Str
  duration : Int
  status : Str
  race : Bool
  suite : Bool
deriving DecidableEq

/-- One write to the output sink: each constructor corresponds to one
`Fprintf`/`Fprint` call of the source, carrying the interpolated data (names
and details are carried already escaped, exactly as interpolated). -/
inductive OutLine where
  | testStarted (timestamp : Nat) (name : Str)
  | raw (s : Str)
  | testIgnored (timestamp : Nat) (name : Str)
  | testFailed (timestamp : Nat) (name : Str) (message : Option Str) (details : Str)
  | testFinished (timestamp : Nat) (name : Str) (durationMs : Int)
  | testSuiteStarted (name : Str)
  | testSuiteFinished (name : Str)
deriving DecidableEq

/-- The source's `outputTest` (one `getNow()` call made by the caller supplies
`now`; `additionalTestName` is the `addName` parameter). -/
def outputTest (addName : Str) (now : Nat) (t : GoTest) : List OutLine :=
  let testName := escape (addName ++ t.name)
  [OutLine.testStarted t.start testName, OutLine.raw t.output] ++
  (if t.status = "SKIP".data then [OutLine.testIgnored now testName]
   else
     (if t.race then
        [OutLine.testFailed now testName (some "Race detected!".data)
          (escapeLines t.details)]
      else if t.status = "FAIL".data then
        [OutLine.testFailed now testName none (escapeLines t.details)]
      else if t.status = "PASS".data then []
      else
        [OutLine.testFailed now testName (some "Test ended in panic.".data)
          (escapeLines t.details)]) ++
     [OutLine.testFinished now testName (Int.tdiv t.duration 1000000)])

/-- The source's `suite` helper: `name[:strings.LastIndex(name, "/")]`, or `""`
when there is no `/`. -/
def suiteOf (n : Str) : Str :=
  ((n.reverse.dropWhile (fun c => c ≠ '/')).drop 1).reverse

/-! ### The pending map (`tests map[string]*Test`) -/

abbrev TMap := List (Str × GoTest)

def lookupT : TMap → Str → Option GoTest
  | [], _ => none
  | (k, v) :: rest, n => if k = n then some v else lookupT rest n

def insertT : TMap → Str → GoTest → TMap
  | [], n, v => [(n, v)]
  | (k, w) :: rest, n, v =>
    if k = n then (n, v) :: rest else (k, w) :: insertT rest n v

def eraseT : TMap → Str → TMap
  | [], _ => []
  | (k, v) :: rest, n => if k = n then rest else (k, v) :: eraseT rest n

def keysOf (ts : TMap) : List Str := ts.map Prod.fst

/-- The body of the marking loop in `newTest`:
`if p := tests[n]; p != nil { p.Suite = true }`. -/
def setSuiteTrue (ts : TMap) (n : Str) : TMap :=
  match lookupT ts n with
  | none => ts
  | some t => insertT ts n { t with suite := true }

/--
The loop `for n := suite(name); n != ""; n = suite(n)` of `newTest`, marking
every pending ancestor as a suite.  `suiteOf` strictly shortens its argument,
so with fuel `n.length + 1` (supplied by `markParents`) the fuel-0 branch is
unreachable.
-/
def markParentsAux : Nat → TMap → Str → TMap
  | 0, ts, _ => ts
  | fuel + 1, ts, n =>
    if n = [] then ts
    else markParentsAux fuel (setSuiteTrue ts n) (suiteOf n)

def markParents (ts : TMap) (n : Str) : TMap := markParentsAux (n.length + 1) ts n

/-! ### The engine state of `processReader` -/

/-- The local state of `processReader`: the pending map, the suite stack (top
at the end, as Go appends), the current record (`test`), the buffered summary
(`final`), the detail indentation (`prefix`), the clock, and the output so
far.  The current record is stored by value and written through to the map on
every mutation; see the header comment. -/
structure PState where
  tests : TMap
  suites : List Str
  cur : Option GoTest
  final : Str
  pfx : Str
  clock : Nat
  out : List OutLine
deriving DecidableEq

def initState : PState :=
  { tests := [], suites := [], cur := none, final := [], pfx := ['\t'],
    clock := 0, out := [] }

/-- The source's `newTest` closure: create the record, insert it, mark pending
ancestors as suites.  Returns the new record alongside the new state. -/
def newTest (s : PState) (nm : Str) : PState × GoTest :=
  let t : GoTest :=
    { start := s.clock, name := nm, output := [], details := [], duration := 0,
      status := [], race := false, suite := false }
  ({ s with tests := markParents (insertT s.tests nm t) (suiteOf nm),
            clock := s.clock + 1 }, t)

/-- Set the current record, writing it through to the pending map (pointer
mutation in the source). -/
def setCur (s : PState) (t : GoTest) : PState :=
  { s with cur := some t, tests := insertT s.tests t.name t }

/--
The literal suite-closing loop of `processReader` (lines 136–141):
`for j := len(suites)-1; j >= 0; j--` with
`if !strings.HasPrefix(test.Name, suites[j]) { finishSuite; suites = suites[:j] }`.
The counter argument is the loop index plus one.
-/
def suitesLoopGo (nm : Str) : List Str → Nat → List Str × List OutLine
  | suites, 0 => (suites, [])
  | suites, j + 1 =>
    match suites.get? j with
    | none => suitesLoopGo nm suites j
    | some x =>
      if hasPfx nm x then suitesLoopGo nm suites j
      else
        let r := suitesLoopGo nm (suites.take j) j
        (r.1, OutLine.testSuiteFinished (escape x) :: r.2)

def popSuites (nm : Str) (suites : List Str) : List Str × List OutLine :=
  suitesLoopGo nm suites suites.length

/-- Finalizing the current record (lines 135–148 of the source): close
non-enclosing suites, open this record's suite if it is one, emit the test,
drop it from the pending map. -/
def finalizeCur (addName : Str) (s : PState) (t : GoTest) : PState :=
  let pr := popSuites t.name s.suites
  let s1 := { s with suites := pr.1, out := s.out ++ pr.2 }
  let s2 :=
    if t.suite then
      { s1 with out := s1.out ++ [OutLine.testSuiteStarted (escape t.name)],
                suites := s1.suites ++ [t.name] }
    else s1
  { s2 with out := s2.out ++ outputTest addName s2.clock t,
            clock := s2.clock + 1,
            tests := eraseT s2.tests t.name,
            cur := none }

/-- The finalization guard at the top of the loop body (line 135 of the
source): `test != nil && test.Status != "" && (run or end or pkg matched)`. -/
def finalizeMaybe (addName : Str) (s : PState) (boundary : Bool) : PState :=
  match s.cur with
  | some t =>
    if t.status ≠ [] ∧ boundary = true then finalizeCur addName s t else s
  | none => s

/-- `test = tests[name]; if test == nil { test = newTest(name) }`. -/
def fetchOrCreate (s : PState) (nm : Str) : PState × GoTest :=
  match lookupT s.tests nm with
  | some t => (s, t)
  | none => newTest s nm

/-- One iteration of the read loop of `processReader` for a complete line. -/
def processLine (addName : Str) (s0 : PState) (line : Str) : PState :=
  let runOut := matchRun line
  let endOut := matchEnd line
  let pkgB := matchPkg line
  let s1 := finalizeMaybe addName s0 (runOut.isSome || endOut.isSome || pkgB)
  match runOut with
  | some nm =>
    let p := newTest s1 nm
    { p.1 with cur := some p.2 }
  | none =>
    match endOut with
    | some em =>
      let p := fetchOrCreate s1 em.name
      let t1 := { p.2 with status := em.status,
                           duration := (goParseDuration em.durText).getD 0 }
      setCur { p.1 with pfx := em.indent ++ ['\t'] } t1
    | none =>
      if pkgB then { s1 with final := s1.final ++ line }
      else
        match s1.cur with
        | some t =>
          if matchRace line then setCur s1 { t with race := true }
          else if t.status ≠ [] ∧ hasPfx line s1.pfx then
            setCur s1
              { t with details := t.details ++ [trimPfx line.dropLast s1.pfx] }
          else setCur s1 { t with output := t.output ++ line }
        | none => { s1 with out := s1.out ++ [OutLine.raw line] }

def runLines (addName : Str) (lines : List Str) : PState :=
  lines.foldl (processLine addName) initState

/-- The end-of-stream map flush (`for _, t := range tests`), in insertion
order; each `outputTest` makes one `getNow()` call. -/
def flushTestsList (addName : Str) (clock : Nat) : TMap → List OutLine × Nat
  | [] => ([], clock)
  | (_, t) :: rest =>
    let r := flushTestsList addName (clock + 1) rest
    (outputTest addName clock t ++ r.1, r.2)

/-- Everything after the read loop (lines 175–186): flush the current record
(without any suite handling), close all open suites, flush the pending map,
print the summary buffer. -/
def flushState (addName : Str) (s : PState) : PState :=
  let s1 :=
    match s.cur with
    | some t =>
      { s with out := s.out ++ outputTest addName s.clock t,
               clock := s.clock + 1,
               tests := eraseT s.tests t.name,
               cur := none }
    | none => s
  let s2 :=
    { s1 with
      out := s1.out ++
        s1.suites.reverse.map (fun nm => OutLine.testSuiteFinished (escape nm)),
      suites := [] }
  let fl := flushTestsList addName s2.clock s2.tests
  { s2 with out := s2.out ++ fl.1 ++ [OutLine.raw s2.final],
            clock := fl.2, tests := [] }

/-- `processReader` on a list of complete (newline-terminated) lines. -/
def processReader (addName : Str) (lines : List Str) : List OutLine :=
  (flushState addName (runLines addName lines)).out

/--
`bufio.Reader.ReadString('\n')` as used by the read loop: split the raw input
into complete newline-terminated lines; a trailing chunk without a newline is
returned together with the read error, on which the loop breaks, so it is
discarded.  The accumulator holds the current line reversed.
-/
def splitLinesAux (acc : Str) : Str → List Str
  | [] => []
  | c :: rest =>
    if c = '\n' then (acc.reverse ++ ['\n']) :: splitLinesAux [] rest
    else splitLinesAux (c :: acc) rest

def splitLines (s : Str) : List Str := splitLinesAux [] s

/-- The whole transformation on a raw input stream. -/
def processStream (addName : Str) (input : Str) : List OutLine :=
  processReader addName (splitLines input)

/-! ### Observations on the output -/

/-- Number of `testStarted` events bearing exactly the (escaped) name `en`. -/
def startedCount : List OutLine → Str → Nat
  | [], _ => 0
  | OutLine.testStarted _ m :: rest, en =>
    (if m = en then 1 else 0) + startedCount rest en
  | _ :: rest, en => startedCount rest en

/-- Does this line mention `n` as the captured name of a start or end line? -/
def lineMentions (l n : Str) : Bool :=
  (matchRun l = some n : Bool) ||
  (match matchEnd l with
   | some em => em.name = n
   | none => false)

/-- The suite-balance checker: scan the output, pushing on `testSuiteStarted`
and popping on a matching `testSuiteFinished`; `none` means an unmatched or
out-of-order finish. -/
def checkerRun : List OutLine → List Str → Option (List Str)
  | [], stk => some stk
  | e :: rest, stk =>
    match e with
    | OutLine.testSuiteStarted n => checkerRun rest (n :: stk)
    | OutLine.testSuiteFinished n =>
      match stk with
      | [] => none
      | m :: stk2 => if m = n then checkerRun rest stk2 else none
    | _ => checkerRun rest stk

/-- The `testFailed` events of an output fragment. -/
def failedEvs (evs : List OutLine) : List OutLine :=
  evs.filter (fun e =>
    match e with
    | OutLine.testFailed _ _ _ _ => true
    | _ => false)

/-! ### Helper lemmas on `escape` -/

theorem replChar_append (c : Char) (r a b : Str) :
    replChar c r (a ++ b) = replChar c r a ++ replChar c r b := by
  induction a with
  | nil => rfl
  | cons x xs ih => simp [replChar, ih]

theorem escape_append (a b : Str) : escape (a ++ b) = escape a ++ escape b := by
  simp [escape, replChar_append]

theorem escape_cons (c : Char) (s : Str) :
    escape (c :: s) = escape [c] ++ escape s := by
  have h : c :: s = [c] ++ s := rfl
  rw [h, escape_append]

theorem escape_singleton_other (c : Char) (h1 : c ≠ '|') (h2 : c ≠ '\n')
    (h3 : c ≠ '\r') (h4 : c ≠ '\'') (h5 : c ≠ ']') (h6 : c ≠ '[') :
    escape [c] = [c] := by
  simp [escape, replChar, h1, h2, h3, h4, h5, h6]

theorem unescape_cons_of_ne (c : Char) (r : Str) (h : c ≠ '|') :
    unescape (c :: r) = c :: unescape r := by
  simp [unescape, h]

/-- The escaping round-trip on carriage-return-free strings.  (On strings with
a carriage return it genuinely fails: `escape` maps both `\r` and `\n` to
`|n`.) -/
theorem escape_unescape (s : Str) (h : '\r' ∉ s) : unescape (escape s) = s := by
  induction s with
  | nil => rfl
  | cons c cs ih =>
    have hc : c ≠ '\r' := by
      intro hEq; exact h (hEq ▸ List.mem_cons_self c cs)
    have hcs : '\r' ∉ cs := fun hm => h (List.mem_cons_of_mem c hm)
    rw [escape_cons]
    by_cases h1 : c = '|'
    · subst h1
      have : escape ['|'] = ['|', '|'] := by decide
      rw [this]
      simp [unescape, unescChar, ih hcs]
    · by_cases h2 : c = '\n'
      · subst h2
        have : escape ['\n'] = ['|', 'n'] := by decide
        rw [this]
        simp [unescape, unescChar, ih hcs]
      · by_cases h4 : c = '\''
        · subst h4
          have : escape ['\''] = ['|', '\''] := by decide
          rw [this]
          simp [unescape, unescChar, ih hcs]
        · by_cases h5 : c = ']'
          · subst h5
            have : escape [']'] = ['|', ']'] := by decide
            rw [this]
            simp [unescape, unescChar, ih hcs]
          · by_cases h6 : c = '['
            · subst h6
              have : escape ['['] = ['|', '['] := by decide
              rw [this]
              simp [unescape, unescChar, ih hcs]
            · rw [escape_singleton_other c h1 h2 hc h4 h5 h6]
              rw [List.singleton_append, unescape_cons_of_ne c _ h1, ih hcs]

/-- Escape is injective on carriage-return-free strings. -/
theorem escape_inj (s t : Str) (hs : '\r' ∉ s) (ht : '\r' ∉ t)
    (h : escape s = escape t) : s = t := by
  have := escape_unescape s hs
  rw [h, escape_unescape t ht] at this
  exact this.symm

/--
**C8.** The `escape` function applies its substitutions in source order
(`|`→`||`, `\n`→`|n`, `\r`→`|n`, `'`→`|'`, `]`→`|]`, `[`→`|[`; this is the
definition of `escape` above), and on every string built from ordinary
characters together with `|`, newline, `'`, `[`, `]` — i.e. any string without
a carriage return — escaping followed by unescaping recovers the original
string, so `escape` is injective/invertible on such inputs.
-/
theorem claim8_escape_roundtrip (s : Str) (h : '\r' ∉ s) :
    unescape (escape s) = s :=
  escape_unescape s h

theorem claim8_escape_roundtrip_witness :
    ('\r' ∉ "a|b\nc'd[e]f_|n".data) ∧
      unescape (escape "a|b\nc'd[e]f_|n".data) = "a|b\nc'd[e]f_|n".data :=
  ⟨by decide, claim8_escape_roundtrip "a|b\nc'd[e]f_|n".data (by decide)⟩

/-! ### C1: the subtest-without-parent-end scenario -/

/--
**C1 (counterexample).** The claim asserts that for the two-line input
`=== RUN TestA/Sub` / `    --- FAIL: TestA/Sub (0.00s)` the output includes
`testSuiteStarted(TestA)`.  It does not: `TestA` never appears on a start
line, so no record for it exists, `TestA/Sub`'s record is never marked as a
suite parent, and the end-of-stream flush emits the current record without any
suite handling — so no suite event and no `TestA` event is emitted at all.
-/
theorem claim1_counterexample :
    OutLine.testSuiteStarted "TestA".data ∉
      processReader [] ["=== RUN TestA/Sub\n".data,
                        "    --- FAIL: TestA/Sub (0.00s)\n".data] := by
  decide

/--
**C1 (amended).** For the input `=== RUN TestA/Sub`,
`    --- FAIL: TestA/Sub (0.00s)`, then end-of-stream, the output is exactly
`testStarted(TestA/Sub)`, the (empty) captured output, `testFailed(TestA/Sub)`,
`testFinished(TestA/Sub)` and the (empty) summary passthrough: no suite events
are emitted and no events for `TestA` itself, because `TestA` never received a
start line (so no pending record exists for it) and the end-of-stream flush
emits the current record without suite handling.
-/
theorem claim1_amended :
    processReader [] ["=== RUN TestA/Sub\n".data,
                      "    --- FAIL: TestA/Sub (0.00s)\n".data] =
      [OutLine.testStarted 0 "TestA/Sub".data,
       OutLine.raw [],
       OutLine.testFailed 1 "TestA/Sub".data none [],
       OutLine.testFinished 1 "TestA/Sub".data 0,
       OutLine.raw []] := by
  decide

/-! ### C2: when `testFailed` is emitted -/

/--
**C2 (counterexample).** The claim says a `testFailed` event is produced
exactly when the status is `FAIL`, or `raceDetected` is true, or the status is
unset.  A record with status `SKIP` and `raceDetected = true` is a
counterexample: on the input `=== RUN TestA`, `WARNING: DATA RACE`,
`--- SKIP: TestA (0.00s)` the finalized record has `race = true`, yet the
emitted output contains no `testFailed` event at all (the `SKIP` branch of
`outputTest` short-circuits to `testIgnored` before the race check).
-/
theorem claim2_counterexample :
    (runLines [] ["=== RUN TestA\n".data, "WARNING: DATA RACE\n".data,
                  "--- SKIP: TestA (0.00s)\n".data]).cur =
      some { start := 0, name := "TestA".data, output := [], details := [],
             duration := 0, status := "SKIP".data, race := true,
             suite := false } ∧
    failedEvs (processReader [] ["=== RUN TestA\n".data,
                                 "WARNING: DATA RACE\n".data,
                                 "--- SKIP: TestA (0.00s)\n".data]) = [] := by
  constructor
  · decide
  · decide

/--
**C2 (amended).** For a record with one of the statuses that can actually
arise (unset, `PASS`, `SKIP`, `FAIL`), a `testFailed` event is produced
exactly when the status is **not `SKIP`** and (the status is `FAIL`, or
`raceDetected` is true, or the status is unset); and every emitted
`testFailed` event carries the joined, escaped detail lines in its `details`
field, with the fixed race message when `raceDetected` is set.
-/
theorem claim2_testFailed_condition (addName : Str) (now : Nat) (t : GoTest)
    (hst : t.status = [] ∨ t.status = "PASS".data ∨ t.status = "SKIP".data ∨
      t.status = "FAIL".data) :
    (failedEvs (outputTest addName now t) ≠ [] ↔
      (t.status ≠ "SKIP".data ∧
        (t.race = true ∨ t.status = "FAIL".data ∨ t.status = []))) ∧
    (∀ ts nm msg d, OutLine.testFailed ts nm msg d ∈ outputTest addName now t →
      d = escapeLines t.details ∧
        (t.race = true → msg = some "Race detected!".data)) := by
  rcases hst with h | h | h | h <;>
    rcases Bool.eq_false_or_eq_true t.race with hr | hr <;>
    simp [outputTest, failedEvs, hr, h] <;> (intros; simp_all)

theorem claim2_testFailed_condition_witness :
    (("SKIP".data : Str) = [] ∨ ("SKIP".data : Str) = "PASS".data ∨
      ("SKIP".data : Str) = "SKIP".data ∨ ("SKIP".data : Str) = "FAIL".data) ∧
    ((failedEvs (outputTest [] 7
        { start := 0, name := "TestA".data, output := [], details := [],
          duration := 0, status := "SKIP".data, race := true,
          suite := false }) ≠ [] ↔
      (("SKIP".data : Str) ≠ "SKIP".data ∧
        (true = true ∨ ("SKIP".data : Str) = "FAIL".data ∨
          ("SKIP".data : Str) = []))) ∧
    (∀ ts nm msg d, OutLine.testFailed ts nm msg d ∈ outputTest [] 7
        { start := 0, name := "TestA".data, output := [], details := [],
          duration := 0, status := "SKIP".data, race := true,
          suite := false } →
      d = escapeLines ([] : List Str) ∧
        (true = true → msg = some "Race detected!".data))) :=
  ⟨Or.inr (Or.inr (Or.inl rfl)),
   claim2_testFailed_condition [] 7
     { start := 0, name := "TestA".data, output := [], details := [],
       duration := 0, status := "SKIP".data, race := true, suite := false }
     (Or.inr (Or.inr (Or.inl rfl)))⟩

/-! ### C3/C4: duplicated and re-created test names (counterexamples) -/

/--
**C3 (counterexample).** The claim says no test name is ever emitted more than
once.  But when a name is started again after its previous record was already
finalized and emitted, a fresh record with the same name is created and later
emitted too: on `=== RUN TestA`, `--- PASS: TestA (0.00s)`, `=== RUN TestA`
the name `TestA` receives two `testStarted` events (the third line finalizes
and emits the first record, then starts a second one, which is emitted by the
end-of-stream flush).
-/
theorem claim3_counterexample :
    startedCount
      (processReader [] ["=== RUN TestA\n".data, "--- PASS: TestA (0.00s)\n".data,
                         "=== RUN TestA\n".data]) "TestA".data = 2 := by
  decide

/--
**C4 (counterexample).** The claim says that for every start line observed,
exactly one test event sequence is eventually emitted for that test.  The
input `=== RUN TestA`, `=== RUN TestA`, `--- PASS: TestA (0.00s)`,
`=== RUN TestA` contains three start lines for `TestA`, yet exactly two
`testStarted(TestA)` events are emitted: the second start line overwrites the
still-pending first record (which is therefore never emitted), and the fourth
line finalizes the second record and creates a third, emitted at the flush.
Two emissions match neither "one per start line" (three) nor "one per test
name" (one).
-/
theorem claim4_counterexample :
    startedCount
      (processReader [] ["=== RUN TestA\n".data, "=== RUN TestA\n".data,
                         "--- PASS: TestA (0.00s)\n".data,
                         "=== RUN TestA\n".data]) "TestA".data = 2 := by
  decide

/-! ### C6: race overrides pass -/

/--
**C6.** A record with status `PASS` but `raceDetected = true` is emitted as
failed, never as passed: `outputTest` emits exactly `testStarted`, the raw
captured output, `testFailed` with the fixed race message, and `testFinished`.
Moreover, in the concrete scenario where a `WARNING: DATA RACE` line appears
between a test's start line and its `PASS` end line, the test is emitted
exactly that way.
-/
theorem claim6_race_overrides_pass :
    (∀ (addName : Str) (now : Nat) (t : GoTest),
      t.status = "PASS".data → t.race = true →
      outputTest addName now t =
        [OutLine.testStarted t.start (escape (addName ++ t.name)),
         OutLine.raw t.output,
         OutLine.testFailed now (escape (addName ++ t.name))
           (some "Race detected!".data) (escapeLines t.details),
         OutLine.testFinished now (escape (addName ++ t.name))
           (Int.tdiv t.duration 1000000)]) ∧
    processReader [] ["=== RUN TestA\n".data, "WARNING: DATA RACE\n".data,
                      "--- PASS: TestA (0.00s)\n".data] =
      [OutLine.testStarted 0 "TestA".data,
       OutLine.raw [],
       OutLine.testFailed 1 "TestA".data (some "Race detected!".data) [],
       OutLine.testFinished 1 "TestA".data 0,
       OutLine.raw []] := by
  constructor
  · intro addName now t h1 h2
    simp [outputTest, h1, h2]
  · decide

theorem claim6_race_overrides_pass_witness :
    (({ start := 3, name := "TestB".data, output := "boom\n".data,
        details := ["note".data], duration := 2000000, status := "PASS".data,
        race := true, suite := false } : GoTest).status = "PASS".data) ∧
    outputTest [] 9
      { start := 3, name := "TestB".data, output := "boom\n".data,
        details := ["note".data], duration := 2000000, status := "PASS".data,
        race := true, suite := false } =
      [OutLine.testStarted 3 (escape ([] ++ "TestB".data)),
       OutLine.raw "boom\n".data,
       OutLine.testFailed 9 (escape ([] ++ "TestB".data))
         (some "Race detected!".data) (escapeLines ["note".data]),
       OutLine.testFinished 9 (escape ([] ++ "TestB".data))
         (Int.tdiv 2000000 1000000)] :=
  ⟨rfl, claim6_race_overrides_pass.1 [] 9 _ rfl rfl⟩

/-! ### C9: malformed duration text -/

theorem isWS_ne_eq (c : Char) (h : isWS c = true) : c ≠ '=' := by
  intro hEq
  rw [hEq] at h
  exact absurd h (by decide)

/-- A line matched by the `end` regex is never matched by the `run` regex
(its first non-blank character is `-`, not `=`), mirroring the branch order of
the read loop. -/
theorem matchRun_eq_none_of_matchEnd (l : Str) (em : EndMatch)
    (h : matchEnd l = some em) : matchRun l = none := by
  cases l with
  | nil => exact Option.noConfusion h
  | cons c cs =>
    have hrun : ∀ hc : c ≠ '=', matchRun (c :: cs) = none := by
      intro hc
      have hdat : "=== RUN".data = '=' :: "== RUN".data := rfl
      simp [matchRun, hdat, stripLit, hc]
    by_cases hws : isWS c = true
    · exact hrun (isWS_ne_eq c hws)
    · by_cases hc : c = '-'
      · exact hrun (by rw [hc]; decide)
      · exfalso
        have hdat : "--- ".data = '-' :: "-- ".data := rfl
        simp [matchEnd, hws, hdat, stripLit, hc] at h

/--
**C9.** When an end line's parenthesized duration text fails to parse as a Go
duration, the record's duration is set to zero (the parse error is discarded)
and processing continues: after processing such a line from any state, the
current record has duration `0` and the line's status.  Concretely, on
`=== RUN TestA` followed by `--- FAIL: TestA (1.2.3s)` (whose duration text
`1.2.3s` fails to parse), the stream is processed to completion and the
emitted `testFinished` event reports a duration of 0 milliseconds.
-/
theorem claim9_bad_duration_zero :
    (∀ (addName : Str) (s : PState) (l : Str) (em : EndMatch),
      matchEnd l = some em → goParseDuration em.durText = none →
      ∃ t : GoTest, (processLine addName s l).cur = some t ∧ t.duration = 0 ∧
        t.status = em.status) ∧
    processReader [] ["=== RUN TestA\n".data, "--- FAIL: TestA (1.2.3s)\n".data] =
      [OutLine.testStarted 0 "TestA".data,
       OutLine.raw [],
       OutLine.testFailed 1 "TestA".data none [],
       OutLine.testFinished 1 "TestA".data 0,
       OutLine.raw []] := by
  constructor
  · intro addName s l em hEnd hDur
    have hrun := matchRun_eq_none_of_matchEnd l em hEnd
    simp only [processLine, hrun, hEnd, hDur]
    exact ⟨_, rfl, by simp [setCur, hDur], by simp [setCur]⟩
  · decide

theorem claim9_bad_duration_zero_witness :
    (matchEnd "--- FAIL: TestA (1.2.3s)\n".data =
      some ⟨[], "FAIL".data, "TestA".data, "1.2.3s".data⟩) ∧
    (∃ t : GoTest,
      (processLine [] initState "--- FAIL: TestA (1.2.3s)\n".data).cur = some t ∧
        t.duration = 0 ∧ t.status = "FAIL".data) :=
  ⟨by decide,
   claim9_bad_duration_zero.1 [] initState "--- FAIL: TestA (1.2.3s)\n".data
     ⟨[], "FAIL".data, "TestA".data, "1.2.3s".data⟩ (by decide) (by decide)⟩

/-! ### C10: a trailing partial line is discarded -/

theorem splitLinesAux_of_no_nl (rest : Str) (h : '\n' ∉ rest) :
    ∀ acc : Str, splitLinesAux acc rest = [] := by
  induction rest with
  | nil => intro acc; rfl
  | cons c cs ih =>
    intro acc
    have hc : c ≠ '\n' := fun hEq => h (hEq ▸ List.mem_cons_self c cs)
    have hcs : '\n' ∉ cs := fun hm => h (List.mem_cons_of_mem c hm)
    simp [splitLinesAux, hc, ih hcs]

theorem splitLinesAux_append (tail : Str) (hnl : '\n' ∉ tail) :
    ∀ (input : Str), (input = [] ∨ ∃ a, input = a ++ ['\n']) →
    ∀ acc : Str, splitLinesAux acc (input ++ tail) = splitLinesAux acc input := by
  intro input
  induction input with
  | nil =>
    intro _ acc
    rw [List.nil_append]
    exact splitLinesAux_of_no_nl tail hnl acc
  | cons c input2 ih =>
    intro hend acc
    rcases hend with h | ⟨a, ha⟩
    · exact absurd h (List.cons_ne_nil c input2)
    · cases a with
      | nil =>
        rw [List.nil_append] at ha
        obtain ⟨hc, hi⟩ : c = '\n' ∧ input2 = [] := by simpa using ha
        subst hc; subst hi
        simp [splitLinesAux, splitLinesAux_of_no_nl tail hnl]
      | cons d a2 =>
        obtain ⟨hc, hi⟩ : c = d ∧ input2 = a2 ++ ['\n'] := by simpa using ha
        by_cases hnlc : c = '\n' <;>
          simp [splitLinesAux, hnlc] <;>
          exact ih (Or.inr ⟨a2, hi⟩) _

/--
**C10.** If the input ends with a final chunk of text lacking a trailing
newline, that partial final line is discarded entirely: the read loop breaks
on the error returned along with it, so it is never classified, never appended
to any record, never buffered, and never passed through — the output is
identical to the output for the input without the partial chunk (whatever the
trailing chunk is).
-/
theorem claim10_partial_line_discarded (addName input tail : Str)
    (h1 : '\n' ∉ tail) (h2 : input = [] ∨ ∃ a, input = a ++ ['\n']) :
    processStream addName (input ++ tail) = processStream addName input := by
  unfold processStream splitLines
  rw [splitLinesAux_append tail h1 input h2]

theorem claim10_partial_line_discarded_witness :
    ('\n' ∉ "--- FAIL: TestA (0.".data) ∧
    processStream [] ("=== RUN TestA\n".data ++ "--- FAIL: TestA (0.".data) =
      processStream [] "=== RUN TestA\n".data :=
  ⟨by decide,
   claim10_partial_line_discarded [] "=== RUN TestA\n".data
     "--- FAIL: TestA (0.".data (by decide)
     (Or.inr ⟨"=== RUN TestA".data, by decide⟩)⟩

/-! ### Projection lemmas for the engine steps -/

@[simp] theorem setCur_final (s : PState) (t : GoTest) : (setCur s t).final = s.final := rfl
@[simp] theorem setCur_pfx (s : PState) (t : GoTest) : (setCur s t).pfx = s.pfx := rfl
@[simp] theorem setCur_cur (s : PState) (t : GoTest) : (setCur s t).cur = some t := rfl
@[simp] theorem setCur_out (s : PState) (t : GoTest) : (setCur s t).out = s.out := rfl
@[simp] theorem setCur_suites (s : PState) (t : GoTest) : (setCur s t).suites = s.suites := rfl
@[simp] theorem setCur_clock (s : PState) (t : GoTest) : (setCur s t).clock = s.clock := rfl
theorem setCur_tests (s : PState) (t : GoTest) :
    (setCur s t).tests = insertT s.tests t.name t := rfl

@[simp] theorem newTest_fst_final (s : PState) (nm : Str) : (newTest s nm).1.final = s.final := rfl
@[simp] theorem newTest_fst_pfx (s : PState) (nm : Str) : (newTest s nm).1.pfx = s.pfx := rfl
@[simp] theorem newTest_fst_out (s : PState) (nm : Str) : (newTest s nm).1.out = s.out := rfl
@[simp] theorem newTest_fst_suites (s : PState) (nm : Str) : (newTest s nm).1.suites = s.suites := rfl
@[simp] theorem newTest_fst_cur (s : PState) (nm : Str) : (newTest s nm).1.cur = s.cur := rfl
@[simp] theorem newTest_fst_clock (s : PState) (nm : Str) : (newTest s nm).1.clock = s.clock + 1 := rfl
theorem newTest_fst_tests (s : PState) (nm : Str) :
    (newTest s nm).1.tests = markParents (insertT s.tests nm (newTest s nm).2) (suiteOf nm) := rfl
@[simp] theorem newTest_snd_name (s : PState) (nm : Str) : (newTest s nm).2.name = nm := rfl
@[simp] theorem newTest_snd_status (s : PState) (nm : Str) : (newTest s nm).2.status = [] := rfl

theorem finalizeCur_final (a : Str) (s : PState) (t : GoTest) :
    (finalizeCur a s t).final = s.final := by
  cases h : t.suite <;> simp [finalizeCur, h]

theorem finalizeCur_pfx (a : Str) (s : PState) (t : GoTest) :
    (finalizeCur a s t).pfx = s.pfx := by
  cases h : t.suite <;> simp [finalizeCur, h]

theorem finalizeCur_cur (a : Str) (s : PState) (t : GoTest) :
    (finalizeCur a s t).cur = none := by
  cases h : t.suite <;> simp [finalizeCur, h]

theorem finalizeCur_tests (a : Str) (s : PState) (t : GoTest) :
    (finalizeCur a s t).tests = eraseT s.tests t.name := by
  cases h : t.suite <;> simp [finalizeCur, h]

theorem finalizeCur_clock (a : Str) (s : PState) (t : GoTest) :
    (finalizeCur a s t).clock = s.clock + 1 := by
  cases h : t.suite <;> simp [finalizeCur, h]

theorem finalizeCur_out (a : Str) (s : PState) (t : GoTest) :
    (finalizeCur a s t).out =
      s.out ++ ((popSuites t.name s.suites).2 ++
        (if t.suite then [OutLine.testSuiteStarted (escape t.name)] else []) ++
        outputTest a s.clock t) := by
  cases h : t.suite <;> simp [finalizeCur, h]

theorem finalizeCur_suites (a : Str) (s : PState) (t : GoTest) :
    (finalizeCur a s t).suites =
      (popSuites t.name s.suites).1 ++ (if t.suite then [t.name] else []) := by
  cases h : t.suite <;> simp [finalizeCur, h]

@[simp] theorem finalizeMaybe_final (a : Str) (s : PState) (b : Bool) :
    (finalizeMaybe a s b).final = s.final := by
  unfold finalizeMaybe
  cases s.cur with
  | none => rfl
  | some t =>
    dsimp only
    split
    · exact finalizeCur_final a s t
    · rfl

@[simp] theorem finalizeMaybe_pfx (a : Str) (s : PState) (b : Bool) :
    (finalizeMaybe a s b).pfx = s.pfx := by
  unfold finalizeMaybe
  cases s.cur with
  | none => rfl
  | some t =>
    dsimp only
    split
    · exact finalizeCur_pfx a s t
    · rfl

@[simp] theorem fetchOrCreate_fst_final (s : PState) (nm : Str) :
    (fetchOrCreate s nm).1.final = s.final := by
  unfold fetchOrCreate
  cases lookupT s.tests nm <;> simp

@[simp] theorem fetchOrCreate_fst_pfx (s : PState) (nm : Str) :
    (fetchOrCreate s nm).1.pfx = s.pfx := by
  unfold fetchOrCreate
  cases lookupT s.tests nm <;> simp

/-! ### C7: the summary buffer is emitted verbatim, last -/

theorem matchRun_none_of_head (c : Char) (cs : Str) (hc : c ≠ '=') :
    matchRun (c :: cs) = none := by
  have hdat : "=== RUN".data = '=' :: "== RUN".data := rfl
  simp [matchRun, hdat, stripLit, hc]

theorem matchEnd_none_of_head (c : Char) (cs : Str) (h1 : isWS c = false)
    (h2 : c ≠ '-') : matchEnd (c :: cs) = none := by
  have hdat : "--- ".data = '-' :: "-- ".data := rfl
  simp [matchEnd, h1, hdat, stripLit, h2]

theorem hasPfx_head (l : Str) (c0 : Char) (pat : Str)
    (h : hasPfx l (c0 :: pat) = true) : ∃ rest, l = c0 :: rest := by
  cases l with
  | nil => exact absurd h (by simp [hasPfx])
  | cons x xs =>
    refine ⟨xs, ?_⟩
    simp [hasPfx] at h
    rw [h.1]

/-- A summary (`pkg`) line matches neither the `run` nor the `end` regex, so
the earlier branches of the read loop never intercept it. -/
theorem pkg_line_not_run_end (l : Str) (h : matchPkg l = true) :
    matchRun l = none ∧ matchEnd l = none := by
  simp only [matchPkg, Bool.or_eq_true] at h
  have hhead : ∃ c rest, l = c :: rest ∧ (c = 'o' ∨ c = 'P' ∨ c = 'F' ∨ c = 'e') := by
    rcases h with (((h | h) | h) | h) | h
    · obtain ⟨r, hr⟩ := hasPfx_head l 'o' _ h; exact ⟨'o', r, hr, Or.inl rfl⟩
    · obtain ⟨r, hr⟩ := hasPfx_head l 'P' _ h; exact ⟨'P', r, hr, Or.inr (Or.inl rfl)⟩
    · obtain ⟨r, hr⟩ := hasPfx_head l 'F' _ h; exact ⟨'F', r, hr, Or.inr (Or.inr (Or.inl rfl))⟩
    · obtain ⟨r, hr⟩ := hasPfx_head l 'e' _ h; exact ⟨'e', r, hr, Or.inr (Or.inr (Or.inr rfl))⟩
    · obtain ⟨r, hr⟩ := hasPfx_head l 'F' _ h; exact ⟨'F', r, hr, Or.inr (Or.inr (Or.inl rfl))⟩
  obtain ⟨c, rest, hl, hc⟩ := hhead
  subst hl
  rcases hc with hc | hc | hc | hc <;> subst hc <;>
    exact ⟨matchRun_none_of_head _ _ (by decide),
           matchEnd_none_of_head _ _ (by decide) (by decide)⟩

/-- Effect of one line on the summary buffer: exactly the `pkg`-matching lines
are appended, in order. -/
theorem processLine_final (a : Str) (s : PState) (l : Str) :
    (processLine a s l).final = s.final ++ (if matchPkg l then l else []) := by
  cases hp : matchPkg l with
  | true =>
    obtain ⟨hr, he⟩ := pkg_line_not_run_end l hp
    simp [processLine, hr, he, hp]
  | false =>
    cases hr : matchRun l with
    | some nm => simp [processLine, hr, hp]
    | none =>
      cases he : matchEnd l with
      | some em => simp [processLine, hr, he, hp]
      | none =>
        simp only [processLine, hr, he, hp, Option.isSome_none, Bool.false_or,
          Bool.or_false, Bool.or_self]
        cases hc : (finalizeMaybe a s false).cur with
        | none => simp
        | some t =>
          simp only [hc]
          split
          · simp
          · split
            · simp
            · split <;> simp

/-- Over any run of the loop, the summary buffer accumulates exactly the
`pkg`-matching lines, in input order. -/
theorem foldl_final (a : Str) (lines : List Str) :
    ∀ s : PState, (lines.foldl (processLine a) s).final =
      s.final ++ (lines.filter (fun l => matchPkg l)).flatten := by
  induction lines with
  | nil => intro s; simp
  | cons l ls ih =>
    intro s
    rw [List.foldl_cons, ih, processLine_final]
    cases hp : matchPkg l <;> simp [List.filter_cons, hp]

/-- The end-of-stream flush writes the summary buffer as its very last
output item. -/
theorem flushState_out_last (a : Str) (s : PState) :
    ∃ body, (flushState a s).out = body ++ [OutLine.raw s.final] := by
  cases hc : s.cur with
  | none =>
    refine ⟨s.out ++
      (s.suites.reverse.map fun nm => OutLine.testSuiteFinished (escape nm)) ++
      (flushTestsList a s.clock s.tests).1, ?_⟩
    simp [flushState, hc, List.append_assoc]
  | some t =>
    refine ⟨s.out ++ outputTest a s.clock t ++
      (s.suites.reverse.map fun nm => OutLine.testSuiteFinished (escape nm)) ++
      (flushTestsList a (s.clock + 1) (eraseT s.tests t.name)).1, ?_⟩
    simp [flushState, hc, List.append_assoc]

/--
**C7.** For every input stream, the buffered summary lines (the lines matched
by the `pkg` pattern) are emitted verbatim — concatenated in their original
input order, with their content unchanged — as the single final output write,
strictly after every suite and test event, regardless of where the summary
lines appeared in the input stream.
-/
theorem claim7_summary_emitted_last (a : Str) (lines : List Str) :
    ∃ body, processReader a lines =
      body ++ [OutLine.raw ((lines.filter (fun l => matchPkg l)).flatten)] := by
  obtain ⟨body, hb⟩ := flushState_out_last a (runLines a lines)
  refine ⟨body, ?_⟩
  rw [processReader, hb, runLines, foldl_final]
  rfl

/-! ### Lemmas on the pending map -/

instance : Nonempty GoTest :=
  ⟨{ start := 0, name := [], output := [], details := [], duration := 0,
     status := [], race := false, suite := false }⟩

@[simp] theorem keysOf_nil : keysOf [] = [] := rfl

@[simp] theorem keysOf_cons (k : Str) (v : GoTest) (rest : TMap) :
    keysOf ((k, v) :: rest) = k :: keysOf rest := rfl

theorem lookupT_isSome_iff (ts : TMap) (n : Str) :
    (lookupT ts n).isSome = true ↔ n ∈ keysOf ts := by
  induction ts with
  | nil => simp [lookupT]
  | cons kv rest ih =>
    obtain ⟨k, v⟩ := kv
    by_cases h : k = n
    · subst h; simp [lookupT]
    · have h2 : ¬ (n = k) := fun hEq => h hEq.symm
      simp [lookupT, h, h2, ih]

theorem lookupT_eq_none_of_not_mem (ts : TMap) (n : Str)
    (h : n ∉ keysOf ts) : lookupT ts n = none := by
  cases hl : lookupT ts n with
  | none => rfl
  | some t =>
    exact absurd ((lookupT_isSome_iff ts n).mp (by simp [hl])) h

theorem lookupT_mem (ts : TMap) (n : Str) (t : GoTest)
    (h : lookupT ts n = some t) : (n, t) ∈ ts := by
  induction ts with
  | nil => exact Option.noConfusion h
  | cons kv rest ih =>
    obtain ⟨k, v⟩ := kv
    by_cases hk : k = n
    · subst hk
      simp [lookupT] at h
      simp [h]
    · simp [lookupT, hk] at h
      exact List.mem_cons_of_mem _ (ih h)

theorem lookupT_insertT_self (ts : TMap) (n : Str) (v : GoTest) :
    lookupT (insertT ts n v) n = some v := by
  induction ts with
  | nil => simp [insertT, lookupT]
  | cons kv rest ih =>
    obtain ⟨k, w⟩ := kv
    by_cases h : k = n
    · subst h; simp [insertT, lookupT]
    · simp [insertT, lookupT, h, ih]

theorem lookupT_insertT_ne (ts : TMap) (n m : Str) (v : GoTest) (h : m ≠ n) :
    lookupT (insertT ts n v) m = lookupT ts m := by
  have h2 : ¬ (n = m) := fun hEq => h hEq.symm
  induction ts with
  | nil => simp [insertT, lookupT, h2]
  | cons kv rest ih =>
    obtain ⟨k, w⟩ := kv
    by_cases hk : k = n
    · subst hk
      simp [insertT, lookupT, h2]
    · simp [insertT, lookupT, hk, ih]

theorem keysOf_insertT_mem (ts : TMap) (n : Str) (v : GoTest)
    (h : n ∈ keysOf ts) : keysOf (insertT ts n v) = keysOf ts := by
  induction ts with
  | nil => exact absurd h (by simp)
  | cons kv rest ih =>
    obtain ⟨k, w⟩ := kv
    by_cases hk : k = n
    · subst hk; simp [insertT]
    · have h2 : n ∈ keysOf rest := by
        rcases List.mem_cons.mp (by simpa using h) with h3 | h3
        · exact absurd h3.symm hk
        · exact h3
      simp [insertT, hk, ih h2]

theorem keysOf_insertT_not_mem (ts : TMap) (n : Str) (v : GoTest)
    (h : n ∉ keysOf ts) : keysOf (insertT ts n v) = keysOf ts ++ [n] := by
  induction ts with
  | nil => simp [insertT]
  | cons kv rest ih =>
    obtain ⟨k, w⟩ := kv
    have hk : k ≠ n := by
      intro hEq
      exact h (by simp [hEq])
    have h2 : n ∉ keysOf rest := by
      intro hm
      exact h (by simp [hm])
    simp [insertT, hk, ih h2]

theorem eraseT_sublist (ts : TMap) (n : Str) : (eraseT ts n).Sublist ts := by
  induction ts with
  | nil => simp [eraseT]
  | cons kv rest ih =>
    obtain ⟨k, v⟩ := kv
    by_cases hk : k = n
    · subst hk
      simp [eraseT]
    · simp [eraseT, hk]
      exact ih

theorem keysOf_eraseT_sublist (ts : TMap) (n : Str) :
    (keysOf (eraseT ts n)).Sublist (keysOf ts) :=
  (eraseT_sublist ts n).map Prod.fst

theorem lookupT_eraseT_ne (ts : TMap) (n m : Str) (h : m ≠ n) :
    lookupT (eraseT ts n) m = lookupT ts m := by
  have h2 : ¬ (n = m) := fun hEq => h hEq.symm
  induction ts with
  | nil => simp [eraseT]
  | cons kv rest ih =>
    obtain ⟨k, v⟩ := kv
    by_cases hk : k = n
    · subst hk
      simp [eraseT, lookupT, h2]
    · by_cases hm : k = m
      · subst hm; simp [eraseT, lookupT, hk]
      · simp [eraseT, lookupT, hk, hm, ih]

theorem lookupT_eraseT_self (ts : TMap) (n : Str)
    (hnd : (keysOf ts).Nodup) : lookupT (eraseT ts n) n = none := by
  induction ts with
  | nil => simp [eraseT, lookupT]
  | cons kv rest ih =>
    obtain ⟨k, v⟩ := kv
    rw [keysOf_cons, List.nodup_cons] at hnd
    by_cases hk : k = n
    · subst hk
      simp only [eraseT, if_pos rfl]
      exact lookupT_eq_none_of_not_mem rest _ hnd.1
    · simp [eraseT, lookupT, hk]
      exact ih hnd.2

/-- `namesOk`: every record in the pending map carries its own key as name. -/
def namesOk (ts : TMap) : Prop := ∀ kv ∈ ts, (kv : Str × GoTest).2.name = kv.1

theorem namesOk_nil : namesOk [] := by
  intro kv h
  cases h

theorem namesOk_insertT (ts : TMap) (n : Str) (v : GoTest)
    (hts : namesOk ts) (hv : v.name = n) : namesOk (insertT ts n v) := by
  induction ts with
  | nil =>
    intro kv hkv
    simp [insertT] at hkv
    subst hkv
    exact hv
  | cons kv0 rest ih =>
    obtain ⟨k, w⟩ := kv0
    have hw : w.name = k := hts (k, w) (by simp)
    have hrest : namesOk rest := fun kv h => hts kv (List.mem_cons_of_mem _ h)
    by_cases hk : k = n
    · subst hk
      intro kv hkv
      simp [insertT] at hkv
      rcases hkv with h | h
      · subst h; exact hv
      · exact hrest kv h
    · intro kv hkv
      simp only [insertT, if_neg hk, List.mem_cons] at hkv
      rcases hkv with h | h
      · subst h; exact hw
      · exact ih hrest kv h

theorem namesOk_eraseT (ts : TMap) (n : Str) (hts : namesOk ts) :
    namesOk (eraseT ts n) :=
  fun kv h => hts kv ((eraseT_sublist ts n).mem h)

theorem lookupT_name (ts : TMap) (n : Str) (t : GoTest) (hts : namesOk ts)
    (h : lookupT ts n = some t) : t.name = n :=
  hts (n, t) (lookupT_mem ts n t h)

theorem namesOk_setSuiteTrue (ts : TMap) (n : Str) (hts : namesOk ts) :
    namesOk (setSuiteTrue ts n) := by
  unfold setSuiteTrue
  cases hl : lookupT ts n with
  | none => exact hts
  | some t =>
    exact namesOk_insertT ts n _ hts (lookupT_name ts n t hts hl)

theorem keysOf_setSuiteTrue (ts : TMap) (n : Str) :
    keysOf (setSuiteTrue ts n) = keysOf ts := by
  unfold setSuiteTrue
  cases hl : lookupT ts n with
  | none => rfl
  | some t =>
    exact keysOf_insertT_mem ts n _
      ((lookupT_isSome_iff ts n).mp (by simp [hl]))

theorem namesOk_markParentsAux (fuel : Nat) :
    ∀ (ts : TMap) (k : Str), namesOk ts → namesOk (markParentsAux fuel ts k) := by
  induction fuel with
  | zero => intro ts k h; exact h
  | succ f ih =>
    intro ts k h
    unfold markParentsAux
    split
    · exact h
    · exact ih _ _ (namesOk_setSuiteTrue ts k h)

theorem keysOf_markParentsAux (fuel : Nat) :
    ∀ (ts : TMap) (k : Str), keysOf (markParentsAux fuel ts k) = keysOf ts := by
  induction fuel with
  | zero => intro ts k; rfl
  | succ f ih =>
    intro ts k
    unfold markParentsAux
    split
    · rfl
    · rw [ih, keysOf_setSuiteTrue]

theorem namesOk_markParents (ts : TMap) (k : Str) (h : namesOk ts) :
    namesOk (markParents ts k) :=
  namesOk_markParentsAux _ ts k h

theorem keysOf_markParents (ts : TMap) (k : Str) :
    keysOf (markParents ts k) = keysOf ts :=
  keysOf_markParentsAux _ ts k

/-! ### Captured names never contain a carriage return
(`\r` is whitespace for RE2, and a captured name is one name-start character
followed by non-whitespace characters). -/

theorem no_cr_of_name_shape (c : Char) (cs : Str) (hns : isNameStart c = true) :
    '\r' ∉ c :: cs.takeWhile (fun x => !isWS x) := by
  intro hmem
  rcases List.mem_cons.mp hmem with h1 | h1
  · rw [← h1] at hns
    exact absurd hns (by decide)
  · have h2 := List.mem_takeWhile_imp h1
    exact absurd h2 (by decide)

theorem matchRun_name_no_cr (l n : Str) (h : matchRun l = some n) : '\r' ∉ n := by
  unfold matchRun at h
  repeat
    first
      | exact Option.noConfusion h
      | split at h
      | dsimp only at h
  all_goals
    first
      | exact Option.noConfusion h
      | (injection h with h2
         rw [← h2]
         exact no_cr_of_name_shape _ _ (by assumption))

theorem matchEnd_name_no_cr (l : Str) (em : EndMatch) (h : matchEnd l = some em) :
    '\r' ∉ em.name := by
  unfold matchEnd at h
  repeat
    first
      | exact Option.noConfusion h
      | split at h
      | dsimp only at h
  all_goals
    first
      | exact Option.noConfusion h
      | (injection h with h2
         rw [← h2]
         exact no_cr_of_name_shape _ _ (by assumption))

/-! ### Counting `testStarted` events -/

theorem startedCount_append (a b : List OutLine) (en : Str) :
    startedCount (a ++ b) en = startedCount a en + startedCount b en := by
  induction a with
  | nil => simp [startedCount]
  | cons e rest ih =>
    cases e <;> simp [startedCount, ih, Nat.add_assoc]

theorem startedCount_outputTest (aN : Str) (now : Nat) (t : GoTest) (en : Str) :
    startedCount (outputTest aN now t) en =
      if escape (aN ++ t.name) = en then 1 else 0 := by
  unfold outputTest
  dsimp only
  split
  · simp [startedCount]
  · split
    · simp [startedCount, startedCount_append]
    · split
      · simp [startedCount, startedCount_append]
      · split
        · simp [startedCount, startedCount_append]
        · simp [startedCount, startedCount_append]

theorem startedCount_suitesLoopGo (nm en : Str) :
    ∀ (j : Nat) (ss : List Str), startedCount (suitesLoopGo nm ss j).2 en = 0 := by
  intro j
  induction j with
  | zero => intro ss; rfl
  | succ j ih =>
    intro ss
    unfold suitesLoopGo
    cases hg : ss.get? j with
    | none => exact ih ss
    | some x =>
      dsimp only
      split
      · exact ih ss
      · simp [startedCount, ih]

theorem startedCount_popSuites (nm : Str) (ss : List Str) (en : Str) :
    startedCount (popSuites nm ss).2 en = 0 :=
  startedCount_suitesLoopGo nm en ss.length ss

theorem startedCount_finalizeCur (aN : Str) (s : PState) (t : GoTest) (en : Str) :
    startedCount (finalizeCur aN s t).out en =
      startedCount s.out en + (if escape (aN ++ t.name) = en then 1 else 0) := by
  rw [finalizeCur_out, startedCount_append, startedCount_append,
    startedCount_append, startedCount_popSuites, startedCount_outputTest]
  cases ht : t.suite <;> simp [startedCount]

theorem startedCount_suiteFinishes (ss : List Str) (en : Str) :
    startedCount (ss.map (fun nm => OutLine.testSuiteFinished (escape nm))) en = 0 := by
  induction ss with
  | nil => rfl
  | cons x rest ih => simp [startedCount, ih]

/-! ### C4: every started name is eventually emitted -/

/-- Whether `n` is a pending-map key, as 0/1. -/
def pendingN (s : PState) (n : Str) : Nat := if n ∈ keysOf s.tests then 1 else 0

/-- `n` has been emitted or is pending. -/
def reachedN (a : Str) (s : PState) (n : Str) : Prop :=
  1 ≤ startedCount s.out (escape (a ++ n)) + pendingN s n

theorem mem_keysOf_insertT_self (ts : TMap) (n : Str) (v : GoTest) :
    n ∈ keysOf (insertT ts n v) := by
  by_cases h : n ∈ keysOf ts
  · rw [keysOf_insertT_mem ts n v h]; exact h
  · rw [keysOf_insertT_not_mem ts n v h]; simp

theorem mem_keysOf_insertT_iff (ts : TMap) (n m : Str) (v : GoTest) :
    m ∈ keysOf (insertT ts n v) ↔ (m = n ∨ m ∈ keysOf ts) := by
  rw [← lookupT_isSome_iff, ← lookupT_isSome_iff]
  by_cases h : m = n
  · subst h
    simp [lookupT_insertT_self]
  · rw [lookupT_insertT_ne ts n m v h]
    simp [h]

theorem mem_keysOf_eraseT_ne (ts : TMap) (n m : Str) (h : m ≠ n) :
    (m ∈ keysOf (eraseT ts n)) ↔ m ∈ keysOf ts := by
  rw [← lookupT_isSome_iff, ← lookupT_isSome_iff, lookupT_eraseT_ne ts n m h]

@[simp] theorem finalizeMaybe_false (a : Str) (s : PState) :
    finalizeMaybe a s false = s := by
  unfold finalizeMaybe
  cases s.cur with
  | none => rfl
  | some t =>
    dsimp only
    rw [if_neg]
    simp

theorem namesOk_newTest (s : PState) (nm : Str) (h : namesOk s.tests) :
    namesOk (newTest s nm).1.tests := by
  rw [newTest_fst_tests]
  exact namesOk_markParents _ _ (namesOk_insertT _ _ _ h rfl)

theorem namesOk_setCur (s : PState) (t : GoTest) (h : namesOk s.tests) :
    namesOk (setCur s t).tests := by
  rw [setCur_tests]
  exact namesOk_insertT _ _ _ h rfl

theorem namesOk_finalizeMaybe (a : Str) (s : PState) (b : Bool)
    (h : namesOk s.tests) : namesOk (finalizeMaybe a s b).tests := by
  unfold finalizeMaybe
  cases s.cur with
  | none => exact h
  | some t =>
    dsimp only
    split
    · rw [finalizeCur_tests]; exact namesOk_eraseT _ _ h
    · exact h

theorem namesOk_fetchOrCreate (s : PState) (nm : Str) (h : namesOk s.tests) :
    namesOk (fetchOrCreate s nm).1.tests := by
  unfold fetchOrCreate
  cases lookupT s.tests nm with
  | none => exact namesOk_newTest s nm h
  | some t => exact h

theorem fetchOrCreate_name (s : PState) (nm : Str) (h : namesOk s.tests) :
    (fetchOrCreate s nm).2.name = nm := by
  unfold fetchOrCreate
  cases hl : lookupT s.tests nm with
  | none => rfl
  | some t => exact lookupT_name _ _ _ h hl

theorem namesOk_processLine (a : Str) (s : PState) (l : Str)
    (h : namesOk s.tests) : namesOk (processLine a s l).tests := by
  have h1 : ∀ b, namesOk (finalizeMaybe a s b).tests :=
    fun b => namesOk_finalizeMaybe a s b h
  unfold processLine
  cases matchRun l with
  | some nm => exact namesOk_newTest _ nm (h1 _)
  | none =>
    cases matchEnd l with
    | some em =>
      dsimp only
      exact namesOk_setCur _ _ (namesOk_fetchOrCreate _ _ (h1 _))
    | none =>
      dsimp only
      split
      · exact h1 _
      · simp only [Option.isSome_none, Bool.false_or]
        cases (finalizeMaybe a s (matchPkg l)).cur with
        | some t =>
          dsimp only
          split
          · exact namesOk_setCur _ _ (h1 _)
          · split
            · exact namesOk_setCur _ _ (h1 _)
            · exact namesOk_setCur _ _ (h1 _)
        | none => exact h1 _

theorem reachedN_finalizeCur (a : Str) (s : PState) (t : GoTest) (n : Str)
    (h : reachedN a s n) : reachedN a (finalizeCur a s t) n := by
  unfold reachedN at *
  rw [startedCount_finalizeCur]
  by_cases hn : escape (a ++ t.name) = escape (a ++ n)
  · rw [if_pos hn]
    have := Nat.zero_le (pendingN (finalizeCur a s t) n)
    omega
  · rw [if_neg hn]
    have hne : t.name ≠ n := fun hEq => hn (by rw [hEq])
    have hp : pendingN (finalizeCur a s t) n = pendingN s n := by
      unfold pendingN
      rw [finalizeCur_tests]
      simp only [mem_keysOf_eraseT_ne s.tests t.name n
        (fun hEq => hne hEq.symm)]
    omega

theorem reachedN_finalizeMaybe (a : Str) (s : PState) (b : Bool) (n : Str)
    (h : reachedN a s n) : reachedN a (finalizeMaybe a s b) n := by
  unfold finalizeMaybe
  cases s.cur with
  | none => exact h
  | some t =>
    dsimp only
    split
    · exact reachedN_finalizeCur a s t n h
    · exact h

theorem pendingN_newTest (s : PState) (nm n : Str) :
    pendingN (newTest s nm).1 n = if n = nm then 1 else pendingN s n := by
  unfold pendingN
  rw [newTest_fst_tests, keysOf_markParents]
  by_cases h : n = nm
  · subst h
    simp [mem_keysOf_insertT_self]
  · simp only [mem_keysOf_insertT_iff]
    simp [h]

@[simp] theorem fetchOrCreate_fst_out (s : PState) (nm : Str) :
    (fetchOrCreate s nm).1.out = s.out := by
  unfold fetchOrCreate
  cases lookupT s.tests nm <;> simp

theorem reachedN_newTest (a : Str) (s : PState) (nm n : Str)
    (h : reachedN a s n) : reachedN a (newTest s nm).1 n := by
  unfold reachedN at *
  rw [newTest_fst_out, pendingN_newTest]
  by_cases hn : n = nm
  · rw [if_pos hn]
    have := Nat.zero_le (startedCount s.out (escape (a ++ n)))
    omega
  · rw [if_neg hn]
    exact h

theorem reachedN_newTest_self (a : Str) (s : PState) (n : Str) :
    reachedN a (newTest s n).1 n := by
  unfold reachedN
  rw [newTest_fst_out, pendingN_newTest, if_pos rfl]
  omega

theorem reachedN_fetchOrCreate (a : Str) (s : PState) (nm n : Str)
    (h : reachedN a s n) : reachedN a (fetchOrCreate s nm).1 n := by
  unfold fetchOrCreate
  cases lookupT s.tests nm with
  | none => exact reachedN_newTest a s nm n h
  | some t => exact h

theorem reachedN_setCur (a : Str) (s : PState) (t : GoTest) (n : Str)
    (h : reachedN a s n) : reachedN a (setCur s t) n := by
  unfold reachedN pendingN at *
  rw [setCur_tests, setCur_out]
  by_cases hn : n = t.name
  · have : n ∈ keysOf (insertT s.tests t.name t) := hn ▸ mem_keysOf_insertT_self s.tests t.name t
    rw [if_pos this]
    omega
  · simp only [mem_keysOf_insertT_iff]
    have : (n = t.name ∨ n ∈ keysOf s.tests) ↔ n ∈ keysOf s.tests := by
      simp [hn]
    rw [if_congr this rfl rfl]
    exact h

theorem reachedN_setCur_self (a : Str) (s : PState) (t : GoTest) :
    reachedN a (setCur s t) t.name := by
  unfold reachedN pendingN
  rw [setCur_tests, if_pos (mem_keysOf_insertT_self s.tests t.name t)]
  omega

/-- Per-line preservation: once a name has been emitted or is pending, it
stays emitted-or-pending. -/
theorem reachedN_processLine (a : Str) (s : PState) (l n : Str)
    (h : reachedN a s n) : reachedN a (processLine a s l) n := by
  have h1 : ∀ b, reachedN a (finalizeMaybe a s b) n :=
    fun b => reachedN_finalizeMaybe a s b n h
  unfold processLine
  cases matchRun l with
  | some nm => exact reachedN_newTest a _ nm n (h1 _)
  | none =>
    cases matchEnd l with
    | some em =>
      dsimp only
      exact reachedN_setCur a _ _ n (reachedN_fetchOrCreate a _ _ n (h1 _))
    | none =>
      dsimp only
      split
      · exact h1 _
      · simp only [Option.isSome_none, Bool.false_or]
        cases (finalizeMaybe a s (matchPkg l)).cur with
        | some t =>
          dsimp only
          split
          · exact reachedN_setCur a _ _ n (h1 _)
          · split
            · exact reachedN_setCur a _ _ n (h1 _)
            · exact reachedN_setCur a _ _ n (h1 _)
        | none =>
          unfold reachedN pendingN at *
          rw [startedCount_append]
          have h2 := h1 (matchPkg l)
          simp [startedCount] at h2 ⊢
          omega

theorem reachedN_processLine_start (a : Str) (s : PState) (l n : Str)
    (hrun : matchRun l = some n) : reachedN a (processLine a s l) n := by
  unfold processLine
  rw [hrun]
  unfold reachedN pendingN
  dsimp only
  have h2 := reachedN_newTest_self a
    (finalizeMaybe a s ((some n).isSome || (matchEnd l).isSome || matchPkg l)) n
  unfold reachedN pendingN at h2
  exact h2

theorem namesOk_initState : namesOk initState.tests := namesOk_nil

theorem foldl_namesOk (a : Str) (ls : List Str) :
    ∀ s : PState, namesOk s.tests →
      namesOk (ls.foldl (processLine a) s).tests := by
  induction ls with
  | nil => intro s h; exact h
  | cons l ls ih =>
    intro s h
    exact ih _ (namesOk_processLine a s l h)

theorem foldl_reachedN (a : Str) (ls : List Str) (n : Str) :
    ∀ s : PState, reachedN a s n →
      reachedN a (ls.foldl (processLine a) s) n := by
  induction ls with
  | nil => intro s h; exact h
  | cons l ls ih =>
    intro s h
    exact ih _ (reachedN_processLine a s l n h)

theorem startedCount_flushTestsList_ge (aN n : Str) :
    ∀ (ts : TMap) (c : Nat), namesOk ts → n ∈ keysOf ts →
      1 ≤ startedCount (flushTestsList aN c ts).1 (escape (aN ++ n)) := by
  intro ts
  induction ts with
  | nil =>
    intro c _ h
    exact absurd h (List.not_mem_nil n)
  | cons kv rest ih =>
    intro c hNK hmem
    obtain ⟨k, t⟩ := kv
    unfold flushTestsList
    dsimp only
    rw [startedCount_append, startedCount_outputTest]
    have ht : t.name = k := hNK (k, t) (by simp)
    by_cases hk : k = n
    · have : escape (aN ++ t.name) = escape (aN ++ n) := by rw [ht, hk]
      rw [if_pos this]
      omega
    · have h2 : n ∈ keysOf rest := by
        rcases List.mem_cons.mp (by simpa using hmem) with h3 | h3
        · exact absurd h3.symm hk
        · exact h3
      have := ih (c + 1) (fun kv h => hNK kv (List.mem_cons_of_mem _ h)) h2
      omega

theorem flushState_reached (a : Str) (s : PState) (n : Str)
    (hNK : namesOk s.tests) (h : reachedN a s n) :
    1 ≤ startedCount (flushState a s).out (escape (a ++ n)) := by
  unfold reachedN pendingN at h
  unfold flushState
  cases hc : s.cur with
  | none =>
    dsimp only
    rw [startedCount_append, startedCount_append, startedCount_append,
      startedCount_suiteFinishes]
    by_cases hm : n ∈ keysOf s.tests
    · have := startedCount_flushTestsList_ge a n s.tests s.clock hNK hm
      omega
    · rw [if_neg hm] at h
      simp [startedCount]
      omega
  | some t =>
    dsimp only
    rw [startedCount_append, startedCount_append, startedCount_append,
      startedCount_append, startedCount_suiteFinishes, startedCount_outputTest]
    by_cases hn : escape (a ++ t.name) = escape (a ++ n)
    · rw [if_pos hn]
      omega
    · rw [if_neg hn]
      have hne : n ≠ t.name := fun hEq => hn (by rw [hEq])
      by_cases hm : n ∈ keysOf s.tests
    
      · have hm2 : n ∈ keysOf (eraseT s.tests t.name) :=
          (mem_keysOf_eraseT_ne s.tests t.name n hne).mpr hm
        have := startedCount_flushTestsList_ge a n (eraseT s.tests t.name)
          (s.clock + 1) (namesOk_eraseT _ _ hNK) hm2
        omega
      · rw [if_neg hm] at h
        simp [startedCount]
        omega

/--
**C4 (amended).** Every name that appears as the captured name of a start
line in the input receives at least one emitted `testStarted` event — even if
no end line for it ever arrives, because at end-of-stream every record still
in the pending map (current or not) is emitted.  (The claim's "exactly one"
fails in both readings, see the counterexample.)
-/
theorem claim4_every_start_emitted (a : Str) (lines : List Str) (l n : Str)
    (hmem : l ∈ lines) (hrun : matchRun l = some n) :
    1 ≤ startedCount (processReader a lines) (escape (a ++ n)) := by
  obtain ⟨pre, post, rfl⟩ := List.append_of_mem hmem
  have hsplit : runLines a (pre ++ l :: post) =
      post.foldl (processLine a)
        (processLine a (pre.foldl (processLine a) initState) l) := by
    unfold runLines
    rw [List.foldl_append, List.foldl_cons]
  have hNK0 : namesOk (pre.foldl (processLine a) initState).tests :=
    foldl_namesOk a pre initState namesOk_initState
  have hr1 : reachedN a
      (processLine a (pre.foldl (processLine a) initState) l) n :=
    reachedN_processLine_start a _ l n hrun
  have hr2 := foldl_reachedN a post n _ hr1
  have hNK2 : namesOk (post.foldl (processLine a)
      (processLine a (pre.foldl (processLine a) initState) l)).tests :=
    foldl_namesOk a post _ (namesOk_processLine a _ l hNK0)
  unfold processReader
  rw [hsplit]
  exact flushState_reached a _ n hNK2 hr2

theorem claim4_every_start_emitted_witness :
    ("=== RUN TestA\n".data ∈ ["=== RUN TestA\n".data]) ∧
    1 ≤ startedCount (processReader [] ["=== RUN TestA\n".data])
      (escape ([] ++ "TestA".data)) :=
  ⟨by decide,
   claim4_every_start_emitted [] ["=== RUN TestA\n".data]
     "=== RUN TestA\n".data "TestA".data (by decide) (by decide)⟩

/-! ### C3: no more emissions than start/end mentions -/

theorem nodupK_insertT (ts : TMap) (n : Str) (v : GoTest)
    (h : (keysOf ts).Nodup) : (keysOf (insertT ts n v)).Nodup := by
  by_cases hm : n ∈ keysOf ts
  · rw [keysOf_insertT_mem ts n v hm]
    exact h
  · rw [keysOf_insertT_not_mem ts n v hm]
    simp [List.nodup_append, h, hm]

theorem nodupK_eraseT (ts : TMap) (n : Str) (h : (keysOf ts).Nodup) :
    (keysOf (eraseT ts n)).Nodup :=
  h.sublist (keysOf_eraseT_sublist ts n)

theorem crfK_insertT (ts : TMap) (n : Str) (v : GoTest)
    (h : ∀ k ∈ keysOf ts, '\r' ∉ k) (hn : '\r' ∉ n) :
    ∀ k ∈ keysOf (insertT ts n v), '\r' ∉ k := by
  intro k hk
  rcases (mem_keysOf_insertT_iff ts n k v).mp hk with h2 | h2
  · exact h2 ▸ hn
  · exact h k h2

theorem crfK_eraseT (ts : TMap) (n : Str)
    (h : ∀ k ∈ keysOf ts, '\r' ∉ k) :
    ∀ k ∈ keysOf (eraseT ts n), '\r' ∉ k :=
  fun k hk => h k ((keysOf_eraseT_sublist ts n).mem hk)

theorem escape_addName_inj (a m n : Str) (ha : '\r' ∉ a) (hm : '\r' ∉ m)
    (hn : '\r' ∉ n) (h : escape (a ++ m) = escape (a ++ n)) : m = n := by
  have h2 := escape_inj (a ++ m) (a ++ n)
    (fun hc => (List.mem_append.mp hc).elim ha hm)
    (fun hc => (List.mem_append.mp hc).elim ha hn) h
  exact List.append_cancel_left h2

/-- The reachable-state invariant used for the emission bound: records carry
their keys as names, keys are distinct and carriage-return-free, and the
current record's name is always a key of the pending map. -/
def inv3 (s : PState) : Prop :=
  namesOk s.tests ∧ (keysOf s.tests).Nodup ∧
  (∀ k ∈ keysOf s.tests, '\r' ∉ k) ∧
  (∀ t, s.cur = some t → t.name ∈ keysOf s.tests)

/-- Emitted-so-far plus pending, the quantity bounded by the mention count. -/
def emPend (a : Str) (s : PState) (n : Str) : Nat :=
  startedCount s.out (escape (a ++ n)) + pendingN s n

theorem inv3_initState : inv3 initState := by
  refine ⟨namesOk_initState, ?_, ?_, ?_⟩
  · simp [initState, keysOf]
  · intro k hk
    simp [initState, keysOf] at hk
  · intro t ht
    simp [initState] at ht

theorem inv3_finalizeCur (a : Str) (s : PState) (t : GoTest)
    (hinv : inv3 s) : inv3 (finalizeCur a s t) := by
  obtain ⟨h1, h2, h3, _⟩ := hinv
  refine ⟨?_, ?_, ?_, ?_⟩
  · rw [finalizeCur_tests]; exact namesOk_eraseT _ _ h1
  · rw [finalizeCur_tests]; exact nodupK_eraseT _ _ h2
  · rw [finalizeCur_tests]; exact crfK_eraseT _ _ h3
  · intro u hu
    rw [finalizeCur_cur] at hu
    exact Option.noConfusion hu

theorem inv3_finalizeMaybe (a : Str) (s : PState) (b : Bool)
    (hinv : inv3 s) : inv3 (finalizeMaybe a s b) := by
  unfold finalizeMaybe
  cases s.cur with
  | none => exact hinv
  | some t =>
    dsimp only
    split
    · exact inv3_finalizeCur a s t hinv
    · exact hinv

theorem emPend_finalizeCur_le (a : Str) (s : PState) (t : GoTest) (n : Str)
    (hinv : inv3 s) (hcur : t.name ∈ keysOf s.tests)
    (hra : '\r' ∉ a) (hrn : '\r' ∉ n) :
    emPend a (finalizeCur a s t) n ≤ emPend a s n := by
  obtain ⟨h1, h2, h3, _⟩ := hinv
  unfold emPend pendingN
  rw [startedCount_finalizeCur, finalizeCur_tests]
  by_cases hn : t.name = n
  · subst hn
    rw [if_pos rfl]
    have hout : t.name ∉ keysOf (eraseT s.tests t.name) := by
      intro hmem
      have := (lookupT_isSome_iff (eraseT s.tests t.name) t.name).mpr hmem
      rw [lookupT_eraseT_self s.tests t.name h2] at this
      exact Bool.noConfusion this
    rw [if_neg hout, if_pos hcur]
  · have hne2 : escape (a ++ t.name) ≠ escape (a ++ n) := by
      intro hEq
      exact hn (escape_addName_inj a t.name n hra (h3 t.name hcur) hrn hEq)
    rw [if_neg hne2]
    have : (n ∈ keysOf (eraseT s.tests t.name)) ↔ n ∈ keysOf s.tests :=
      mem_keysOf_eraseT_ne s.tests t.name n (fun hEq => hn hEq.symm)
    rw [if_congr this rfl rfl]
    omega

theorem emPend_finalizeMaybe_le (a : Str) (s : PState) (b : Bool) (n : Str)
    (hinv : inv3 s) (hra : '\r' ∉ a) (hrn : '\r' ∉ n) :
    emPend a (finalizeMaybe a s b) n ≤ emPend a s n := by
  unfold finalizeMaybe
  cases hc : s.cur with
  | none => exact Nat.le_refl _
  | some t =>
    dsimp only
    split
    · exact emPend_finalizeCur_le a s t n hinv (hinv.2.2.2 t hc) hra hrn
    · exact Nat.le_refl _

theorem inv3_newTest (s : PState) (nm : Str) (hinv : inv3 s) (hnm : '\r' ∉ nm) :
    inv3 { (newTest s nm).1 with cur := some (newTest s nm).2 } := by
  obtain ⟨h1, h2, h3, _⟩ := hinv
  refine ⟨?_, ?_, ?_, ?_⟩
  · show namesOk (newTest s nm).1.tests
    exact namesOk_newTest s nm h1
  · show (keysOf (newTest s nm).1.tests).Nodup
    rw [newTest_fst_tests, keysOf_markParents]
    exact nodupK_insertT _ _ _ h2
  · show ∀ k ∈ keysOf (newTest s nm).1.tests, '\r' ∉ k
    rw [newTest_fst_tests, keysOf_markParents]
    exact crfK_insertT _ _ _ h3 hnm
  · intro u hu
    have h5 : some (newTest s nm).2 = some u := hu
    have h6 : u = (newTest s nm).2 := (Option.some.injEq _ _ ▸ h5).symm
    subst h6
    show (newTest s nm).2.name ∈ keysOf (newTest s nm).1.tests
    rw [newTest_snd_name, newTest_fst_tests, keysOf_markParents]
    exact mem_keysOf_insertT_self _ _ _

theorem inv3_setCur (s : PState) (t : GoTest) (hinv : inv3 s)
    (hname : '\r' ∉ t.name) : inv3 (setCur s t) := by
  obtain ⟨h1, h2, h3, _⟩ := hinv
  refine ⟨?_, ?_, ?_, ?_⟩
  · rw [setCur_tests]
    exact namesOk_insertT _ _ _ h1 rfl
  · show (keysOf (setCur s t).tests).Nodup
    rw [setCur_tests]
    exact nodupK_insertT _ _ _ h2
  · show ∀ k ∈ keysOf (setCur s t).tests, '\r' ∉ k
    rw [setCur_tests]
    exact crfK_insertT _ _ _ h3 hname
  · intro u hu
    rw [setCur_cur] at hu
    have h6 : u = t := (Option.some.injEq _ _ ▸ hu).symm
    subst h6
    show u.name ∈ keysOf (setCur s u).tests
    rw [setCur_tests]
    exact mem_keysOf_insertT_self _ _ _

theorem inv3_fetchOrCreate (s : PState) (nm : Str) (hinv : inv3 s)
    (hnm : '\r' ∉ nm) : inv3 (fetchOrCreate s nm).1 := by
  unfold fetchOrCreate
  cases lookupT s.tests nm with
  | some t => exact hinv
  | none =>
    obtain ⟨h1, h2, h3, h4⟩ := hinv
    refine ⟨?_, ?_, ?_, ?_⟩
    · exact namesOk_newTest s nm h1
    · show (keysOf (newTest s nm).1.tests).Nodup
      rw [newTest_fst_tests, keysOf_markParents]
      exact nodupK_insertT _ _ _ h2
    · show ∀ k ∈ keysOf (newTest s nm).1.tests, '\r' ∉ k
      rw [newTest_fst_tests, keysOf_markParents]
      exact crfK_insertT _ _ _ h3 hnm
    · intro u hu
      have h5 : s.cur = some u := hu
      have h6 := h4 u h5
      show u.name ∈ keysOf (newTest s nm).1.tests
      rw [newTest_fst_tests, keysOf_markParents]
      exact (mem_keysOf_insertT_iff _ _ _ _).mpr (Or.inr h6)

theorem fetchOrCreate_snd_no_cr (s : PState) (nm : Str) (hinv : inv3 s)
    (hnm : '\r' ∉ nm) : '\r' ∉ (fetchOrCreate s nm).2.name := by
  unfold fetchOrCreate
  cases hl : lookupT s.tests nm with
  | some t =>
    have := lookupT_name s.tests nm t hinv.1 hl
    simpa [this] using hnm
  | none => simpa using hnm

theorem inv3_processLine (a : Str) (s : PState) (l : Str)
    (hinv : inv3 s) : inv3 (processLine a s l) := by
  have hinv1 : ∀ b, inv3 (finalizeMaybe a s b) :=
    fun b => inv3_finalizeMaybe a s b hinv
  unfold processLine
  cases hr : matchRun l with
  | some nm => exact inv3_newTest _ nm (hinv1 _) (matchRun_name_no_cr l nm hr)
  | none =>
    cases he : matchEnd l with
    | some em =>
      dsimp only
      have hnm := matchEnd_name_no_cr l em he
      have hfi := inv3_fetchOrCreate (finalizeMaybe a s
        ((none : Option Str).isSome || (some em : Option EndMatch).isSome ||
          matchPkg l)) em.name (hinv1 _) hnm
      have hn2 := fetchOrCreate_snd_no_cr (finalizeMaybe a s
        ((none : Option Str).isSome || (some em : Option EndMatch).isSome ||
          matchPkg l)) em.name (hinv1 _) hnm
      exact inv3_setCur _ _ hfi hn2
    | none =>
      dsimp only
      split
      · exact hinv1 _
      · simp only [Option.isSome_none, Bool.false_or]
        cases hcur : (finalizeMaybe a s (matchPkg l)).cur with
        | some t =>
          have hmem := (hinv1 (matchPkg l)).2.2.2 t hcur
          have hcr : '\r' ∉ t.name := (hinv1 (matchPkg l)).2.2.1 t.name hmem
          dsimp only
          split
          · exact inv3_setCur _ _ (hinv1 _) hcr
          · split
            · exact inv3_setCur _ _ (hinv1 _) hcr
            · exact inv3_setCur _ _ (hinv1 _) hcr
        | none =>
          obtain ⟨h1, h2, h3, h4⟩ := hinv1 (matchPkg l)
          exact ⟨h1, h2, h3, fun u hu => h4 u (hcur ▸ hu)⟩

theorem emPend_runBranch (a : Str) (s1 : PState) (nm n : Str) :
    emPend a { (newTest s1 nm).1 with cur := some (newTest s1 nm).2 } n ≤
      emPend a s1 n + (if n = nm then 1 else 0) := by
  show startedCount (newTest s1 nm).1.out (escape (a ++ n)) +
      pendingN (newTest s1 nm).1 n ≤ _
  rw [newTest_fst_out, pendingN_newTest]
  unfold emPend pendingN
  by_cases hn : n = nm
  · rw [if_pos hn, if_pos hn]
    omega
  · rw [if_neg hn, if_neg hn]
    omega

theorem pendingN_fetchOrCreate_ne (s : PState) (nm n : Str) (h : n ≠ nm) :
    pendingN (fetchOrCreate s nm).1 n = pendingN s n := by
  unfold fetchOrCreate
  cases lookupT s.tests nm with
  | none => rw [pendingN_newTest, if_neg h]
  | some t => rfl

theorem pendingN_endBranch (s1 : PState) (em : EndMatch) (t1 : GoTest)
    (n pf : Str) (hname : t1.name = em.name) :
    pendingN (setCur { (fetchOrCreate s1 em.name).1 with pfx := pf } t1) n =
      if n = em.name then 1 else pendingN s1 n := by
  unfold pendingN
  rw [setCur_tests]
  show (if n ∈ keysOf
      (insertT (fetchOrCreate s1 em.name).1.tests t1.name t1) then 1 else 0) = _
  by_cases hn : n = em.name
  · rw [if_pos hn]
    have hmem : n ∈ keysOf
        (insertT (fetchOrCreate s1 em.name).1.tests t1.name t1) := by
      have h2 : n = t1.name := by rw [hname, hn]
      rw [h2]
      exact mem_keysOf_insertT_self _ _ _
    rw [if_pos hmem]
  · rw [if_neg hn]
    have hne : ¬ (n = t1.name) := by rw [hname]; exact hn
    have hiff : (n ∈ keysOf
        (insertT (fetchOrCreate s1 em.name).1.tests t1.name t1)) ↔
        n ∈ keysOf (fetchOrCreate s1 em.name).1.tests := by
      rw [mem_keysOf_insertT_iff]
      simp [hne]
    rw [if_congr hiff rfl rfl]
    show pendingN (fetchOrCreate s1 em.name).1 n = pendingN s1 n
    exact pendingN_fetchOrCreate_ne s1 em.name n hn

theorem emPend_endBranch (a : Str) (s1 : PState) (em : EndMatch) (n : Str)
    (hNK : namesOk s1.tests) :
    emPend a (setCur
      { (fetchOrCreate s1 em.name).1 with pfx := em.indent ++ ['\t'] }
      { (fetchOrCreate s1 em.name).2 with
        status := em.status,
        duration := (goParseDuration em.durText).getD 0 }) n ≤
      emPend a s1 n + (if n = em.name then 1 else 0) := by
  have hname : ({ (fetchOrCreate s1 em.name).2 with
      status := em.status,
      duration := (goParseDuration em.durText).getD 0 } : GoTest).name =
      em.name := by
    show (fetchOrCreate s1 em.name).2.name = em.name
    exact fetchOrCreate_name s1 em.name hNK
  unfold emPend
  rw [pendingN_endBranch s1 em _ n _ hname, setCur_out]
  dsimp only
  rw [fetchOrCreate_fst_out]
  unfold pendingN
  by_cases hn : n = em.name
  · rw [if_pos hn, if_pos hn]
    omega
  · rw [if_neg hn, if_neg hn]
    omega

/-- Per-line emission bound: each line adds to emitted-plus-pending at most
its own mention of `n`. -/
theorem emPend_processLine (a : Str) (s : PState) (l n : Str)
    (hinv : inv3 s) (hra : '\r' ∉ a) (hrn : '\r' ∉ n) :
    emPend a (processLine a s l) n ≤
      emPend a s n + (if lineMentions l n then 1 else 0) := by
  have hstep : ∀ b, emPend a (finalizeMaybe a s b) n ≤ emPend a s n :=
    fun b => emPend_finalizeMaybe_le a s b n hinv hra hrn
  have hinv1 : ∀ b, inv3 (finalizeMaybe a s b) :=
    fun b => inv3_finalizeMaybe a s b hinv
  unfold processLine
  cases hr : matchRun l with
  | some nm =>
    dsimp only
    have hb := emPend_runBranch a
      (finalizeMaybe a s ((some nm : Option Str).isSome ||
        (matchEnd l).isSome || matchPkg l)) nm n
    dsimp only at hb
    by_cases hn : n = nm
    · have hm : lineMentions l n = true := by
        simp [lineMentions, hr, hn]
      rw [if_pos hm]
      have := hstep ((some nm : Option Str).isSome ||
        (matchEnd l).isSome || matchPkg l)
      rw [if_pos hn] at hb
      omega
    · rw [if_neg hn] at hb
      have := hstep ((some nm : Option Str).isSome ||
        (matchEnd l).isSome || matchPkg l)
      have hle : (0 : Nat) ≤ if lineMentions l n then 1 else 0 := Nat.zero_le _
      omega
  | none =>
    cases he : matchEnd l with
    | some em =>
      dsimp only
      have hNK1 : namesOk (finalizeMaybe a s ((none : Option Str).isSome ||
          (some em : Option EndMatch).isSome || matchPkg l)).tests :=
        (hinv1 _).1
      have hb := emPend_endBranch a
        (finalizeMaybe a s ((none : Option Str).isSome ||
          (some em : Option EndMatch).isSome || matchPkg l)) em n hNK1
      dsimp only at hb
      by_cases hn : n = em.name
      · have hm : lineMentions l n = true := by
          simp [lineMentions, he, hn]
        rw [if_pos hm]
        have := hstep ((none : Option Str).isSome ||
          (some em : Option EndMatch).isSome || matchPkg l)
        rw [if_pos hn] at hb
        omega
      · rw [if_neg hn] at hb
        have := hstep ((none : Option Str).isSome ||
          (some em : Option EndMatch).isSome || matchPkg l)
        have hle : (0 : Nat) ≤ if lineMentions l n then 1 else 0 := Nat.zero_le _
        omega
    | none =>
      dsimp only
      simp only [Option.isSome_none, Bool.false_or]
      have hle : (0 : Nat) ≤ if lineMentions l n then 1 else 0 := Nat.zero_le _
      split
      · exact le_trans (hstep (matchPkg l)) (Nat.le_add_right _ _)
      · cases hcur : (finalizeMaybe a s (matchPkg l)).cur with
        | some t =>
          have hmem := (hinv1 (matchPkg l)).2.2.2 t hcur
          have hkey : ∀ u : GoTest, u.name = t.name →
              emPend a (setCur (finalizeMaybe a s (matchPkg l)) u) n ≤
                emPend a (finalizeMaybe a s (matchPkg l)) n := by
            intro u hu
            unfold emPend pendingN
            rw [setCur_tests, setCur_out]
            by_cases hn : n = u.name
            · have hm2 : n ∈ keysOf (finalizeMaybe a s (matchPkg l)).tests := by
                rw [hn, hu]
                exact hmem
              have hm3 : n ∈ keysOf (insertT
                  (finalizeMaybe a s (matchPkg l)).tests u.name u) := by
                rw [hn]
                exact mem_keysOf_insertT_self _ _ _
              rw [if_pos hm3, if_pos hm2]
            · have hiff : (n ∈ keysOf (insertT
                  (finalizeMaybe a s (matchPkg l)).tests u.name u)) ↔
                  n ∈ keysOf (finalizeMaybe a s (matchPkg l)).tests := by
                rw [mem_keysOf_insertT_iff]
                simp [hn]
              rw [if_congr hiff rfl rfl]
          dsimp only
          split
          · have h5 := hkey { t with race := true } rfl
            have hs := hstep (matchPkg l)
            omega
          · split
            · have h5 := hkey { t with details := t.details ++
                [trimPfx (List.dropLast l)
                  (finalizeMaybe a s (matchPkg l)).pfx] } rfl
              have hs := hstep (matchPkg l)
              omega
            · have h5 := hkey { t with output := t.output ++ l } rfl
              have hs := hstep (matchPkg l)
              omega
        | none =>
          show emPend a { finalizeMaybe a s (matchPkg l) with
              out := (finalizeMaybe a s (matchPkg l)).out ++
                [OutLine.raw l] } n ≤ _
          have hs := hstep (matchPkg l)
          have h2 : emPend a { finalizeMaybe a s (matchPkg l) with
              out := (finalizeMaybe a s (matchPkg l)).out ++
                [OutLine.raw l] } n =
              emPend a (finalizeMaybe a s (matchPkg l)) n := by
            unfold emPend
            show startedCount ((finalizeMaybe a s (matchPkg l)).out ++
              [OutLine.raw l]) (escape (a ++ n)) +
              pendingN (finalizeMaybe a s (matchPkg l)) n = _
            rw [startedCount_append]
            simp [startedCount]
          omega

theorem foldl_inv3 (a : Str) (ls : List Str) :
    ∀ s : PState, inv3 s → inv3 (ls.foldl (processLine a) s) := by
  induction ls with
  | nil => intro s h; exact h
  | cons l ls ih =>
    intro s h
    exact ih _ (inv3_processLine a s l h)

theorem foldl_emPend (a : Str) (ls : List Str) (n : Str)
    (hra : '\r' ∉ a) (hrn : '\r' ∉ n) :
    ∀ s : PState, inv3 s →
      emPend a (ls.foldl (processLine a) s) n ≤
        emPend a s n + (ls.filter (fun l => lineMentions l n)).length := by
  induction ls with
  | nil => intro s _; simp
  | cons l ls ih =>
    intro s hinv
    have h1 := emPend_processLine a s l n hinv hra hrn
    have h2 := ih (processLine a s l) (inv3_processLine a s l hinv)
    rw [List.foldl_cons]
    cases hm : lineMentions l n <;>
      simp only [hm, if_pos, if_neg, Bool.false_eq_true, not_false_eq_true,
        List.filter_cons, if_true, if_false, List.length_cons] at h1 ⊢ <;>
      omega

theorem startedCount_flushTestsList_le (aN n : Str) (hra : '\r' ∉ aN)
    (hrn : '\r' ∉ n) :
    ∀ (ts : TMap) (c : Nat), namesOk ts → (keysOf ts).Nodup →
      (∀ k ∈ keysOf ts, '\r' ∉ k) →
      startedCount (flushTestsList aN c ts).1 (escape (aN ++ n)) ≤
        (if n ∈ keysOf ts then 1 else 0) := by
  intro ts
  induction ts with
  | nil =>
    intro c _ _ _
    simp [flushTestsList, startedCount]
  | cons kv rest ih =>
    intro c hNK hND hCR
    obtain ⟨k, t⟩ := kv
    unfold flushTestsList
    dsimp only
    rw [startedCount_append, startedCount_outputTest]
    have htn : t.name = k := hNK (k, t) (by simp)
    have hCRk : '\r' ∉ k := hCR k (by simp)
    rw [keysOf_cons, List.nodup_cons] at hND
    have hrest := ih (c + 1) (fun kv h => hNK kv (List.mem_cons_of_mem _ h))
      hND.2 (fun k2 hk2 => hCR k2 (by simp [hk2]))
    by_cases hk : k = n
    · have hite : escape (aN ++ t.name) = escape (aN ++ n) := by rw [htn, hk]
      rw [if_pos hite, if_pos (by simp [hk] : n ∈ keysOf ((k, t) :: rest))]
      have hout : n ∉ keysOf rest := by rw [← hk]; exact hND.1
      rw [if_neg hout] at hrest
      omega
    · have hite : ¬ (escape (aN ++ t.name) = escape (aN ++ n)) := by
        rw [htn]
        intro hEq
        exact hk (escape_addName_inj aN k n hra hCRk hrn hEq)
      rw [if_neg hite]
      have hiff : (n ∈ keysOf ((k, t) :: rest)) ↔ n ∈ keysOf rest := by
        rw [keysOf_cons, List.mem_cons]
        constructor
        · intro h
          rcases h with h2 | h2
          · exact absurd h2.symm hk
          · exact h2
        · exact fun h => Or.inr h
      rw [if_congr hiff rfl rfl]
      omega

theorem flushState_emPend_le (a : Str) (s : PState) (n : Str)
    (hinv : inv3 s) (hra : '\r' ∉ a) (hrn : '\r' ∉ n) :
    startedCount (flushState a s).out (escape (a ++ n)) ≤ emPend a s n := by
  obtain ⟨hNK, hND, hCR, hcurK⟩ := hinv
  unfold flushState
  cases hc : s.cur with
  | none =>
    dsimp only
    rw [startedCount_append, startedCount_append, startedCount_append,
      startedCount_suiteFinishes]
    have hfl := startedCount_flushTestsList_le a n hra hrn s.tests s.clock
      hNK hND hCR
    unfold emPend pendingN
    simp only [startedCount]
    omega
  | some t =>
    dsimp only
    rw [startedCount_append, startedCount_append, startedCount_append,
      startedCount_append, startedCount_suiteFinishes, startedCount_outputTest]
    have hmem := hcurK t hc
    have hCRt : '\r' ∉ t.name := hCR t.name hmem
    have hfl := startedCount_flushTestsList_le a n hra hrn
      (eraseT s.tests t.name) (s.clock + 1) (namesOk_eraseT _ _ hNK)
      (nodupK_eraseT _ _ hND) (crfK_eraseT _ _ hCR)
    unfold emPend pendingN
    by_cases hn : t.name = n
    · have hpos : escape (a ++ t.name) = escape (a ++ n) := by rw [hn]
      rw [if_pos hpos]
      have hout : n ∉ keysOf (eraseT s.tests t.name) := by
        intro hm2
        have h3 := (lookupT_isSome_iff _ _).mpr hm2
        rw [← hn, lookupT_eraseT_self s.tests t.name hND] at h3
        exact Bool.noConfusion h3
      rw [if_neg hout] at hfl
      rw [if_pos (hn ▸ hmem)]
      simp only [startedCount]
      omega
    · have hneg : ¬ (escape (a ++ t.name) = escape (a ++ n)) := fun hEq =>
        hn (escape_addName_inj a t.name n hra hCRt hrn hEq)
      rw [if_neg hneg]
      have hiff : (n ∈ keysOf (eraseT s.tests t.name)) ↔ n ∈ keysOf s.tests :=
        mem_keysOf_eraseT_ne _ _ _ (fun hEq => hn hEq.symm)
      rw [if_congr hiff rfl rfl] at hfl
      simp only [startedCount]
      omega

/--
**C3 (amended).** Each pending record is emitted at most once (emission
removes it from the pending map), so a test name `n` is never emitted more
often than it appears as the captured name of a start or end line in the
input; in particular a name appearing on at most one such line is emitted at
most once.  (As the counterexample shows, a name started again after its
previous record was already emitted *is* emitted again, so the claim's
unconditional "never more than once" is false.)
-/
theorem claim3_no_extra_emissions (a : Str) (lines : List Str) (n : Str)
    (hra : '\r' ∉ a) (hrn : '\r' ∉ n) :
    startedCount (processReader a lines) (escape (a ++ n)) ≤
      (lines.filter (fun l => lineMentions l n)).length := by
  have hfold := foldl_emPend a lines n hra hrn initState inv3_initState
  have hinv := foldl_inv3 a lines initState inv3_initState
  have hflush := flushState_emPend_le a (runLines a lines) n hinv hra hrn
  have hinit : emPend a initState n = 0 := by
    unfold emPend pendingN
    simp [initState, startedCount]
  unfold processReader
  have hrl : runLines a lines = lines.foldl (processLine a) initState := rfl
  rw [hrl] at hflush ⊢
  omega

theorem claim3_no_extra_emissions_witness :
    ('\r' ∉ ([] : Str)) ∧
    startedCount (processReader [] ["=== RUN TestA\n".data,
        "--- PASS: TestA (0.00s)\n".data])
      (escape ([] ++ "TestA".data)) ≤
      ((["=== RUN TestA\n".data, "--- PASS: TestA (0.00s)\n".data]).filter
        (fun l => lineMentions l "TestA".data)).length :=
  ⟨by decide,
   claim3_no_extra_emissions [] ["=== RUN TestA\n".data,
     "--- PASS: TestA (0.00s)\n".data] "TestA".data (by decide) (by decide)⟩

/-! ### C5: suite balance.  First, the literal suite-closing loop is
characterised under the stack chain invariant. -/

theorem dropWhile_append_of_all {α : Type} (p : α → Bool) (M r : List α)
    (h : ∀ x ∈ M, p x = true) : (M ++ r).dropWhile p = r.dropWhile p := by
  induction M with
  | nil => rfl
  | cons y M ih =>
    rw [List.cons_append, List.dropWhile_cons, if_pos (h y (by simp))]
    exact ih (fun x hx => h x (by simp [hx]))

theorem dropWhile_append_of_not_all {α : Type} (p : α → Bool) (M r : List α)
    (h : ¬ ∀ x ∈ M, p x = true) : (M ++ r).dropWhile p = M.dropWhile p ++ r := by
  induction M with
  | nil => exact absurd (by simp) h
  | cons y M ih =>
    rw [List.cons_append, List.dropWhile_cons, List.dropWhile_cons]
    by_cases hy : p y = true
    · rw [if_pos hy, if_pos hy]
      apply ih
      intro hall
      exact h (by
        intro x hx
        rcases List.mem_cons.mp hx with h2 | h2
        · exact h2 ▸ hy
        · exact hall x h2)
    · rw [if_neg hy, if_neg hy]
      rfl

theorem takeWhile_of_take_not_all {α : Type} (p : α → Bool) :
    ∀ (j : Nat) (L : List α), (¬ ∀ x ∈ L.take j, p x = true) →
      L.takeWhile p = (L.take j).takeWhile p := by
  intro j
  induction j with
  | zero => intro L h; exact absurd (by simp) h
  | succ j ih =>
    intro L h
    cases L with
    | nil => rfl
    | cons y L2 =>
      rw [List.take_succ_cons] at h ⊢
      rw [List.takeWhile_cons, List.takeWhile_cons]
      by_cases hy : p y = true
      · rw [if_pos hy, if_pos hy]
        have h2 : ¬ ∀ x ∈ L2.take j, p x = true := by
          intro hall
          exact h (by
            intro x hx
            rcases List.mem_cons.mp hx with h3 | h3
            · exact h3 ▸ hy
            · exact hall x h3)
        rw [ih L2 h2]
      · rw [if_neg hy, if_neg hy]

theorem takeWhile_eq_take_of_all {α : Type} (p : α → Bool) :
    ∀ (j : Nat) (L : List α) (hj : j < L.length),
      (∀ x ∈ L.take j, p x = true) → p (L.get ⟨j, hj⟩) = false →
      L.takeWhile p = L.take j := by
  intro j
  induction j with
  | zero =>
    intro L hj hall hget
    cases L with
    | nil => simp at hj
    | cons y L2 =>
      rw [List.take_zero, List.takeWhile_cons]
      have : p y = false := hget
      rw [this]
      simp
  | succ j ih =>
    intro L hj hall hget
    cases L with
    | nil => simp at hj
    | cons y L2 =>
      rw [List.take_succ_cons] at hall ⊢
      rw [List.takeWhile_cons]
      have hy : p y = true := hall y (by simp)
      rw [if_pos hy]
      have hj2 : j < L2.length := by
        simp at hj
        omega
      have hget2 : p (L2.get ⟨j, hj2⟩) = false := hget
      rw [ih L2 hj2 (fun x hx => hall x (by simp [hx])) hget2]

/-- Characterisation of the literal index-based suite-closing loop, assuming
the kept-predicate is downward closed on the stack (which the prefix-chain
invariant guarantees): the loop keeps the longest all-kept bottom segment and
emits one `testSuiteFinished` for each dropped entry, top-down. -/
theorem suitesLoopGo_spec (nm : Str) :
    ∀ (j : Nat) (L : List Str), j ≤ L.length →
    (∀ (i k : Fin L.length), (i : Nat) ≤ (k : Nat) →
        hasPfx nm (L.get k) = true → hasPfx nm (L.get i) = true) →
    suitesLoopGo nm L j =
      (if ∀ x ∈ L.take j, hasPfx nm x = true then (L, ([] : List OutLine))
       else (L.takeWhile (fun x => hasPfx nm x),
         ((L.take j).dropWhile (fun x => hasPfx nm x)).reverse.map
           (fun x => OutLine.testSuiteFinished (escape x)))) := by
  intro j
  induction j with
  | zero =>
    intro L _ _
    rw [if_pos (by simp)]
    rfl
  | succ j ih =>
    intro L hj hdc
    have hjl : j < L.length := hj
    have hget : L.get? j = some (L.get ⟨j, hjl⟩) := List.get?_eq_get hjl
    have htake1 : L.take (j + 1) = L.take j ++ [L.get ⟨j, hjl⟩] := by
      rw [List.take_succ, List.getElem?_eq_getElem hjl]
      rfl
    have hxmem : L.get ⟨j, hjl⟩ ∈ L.take (j + 1) := by
      rw [htake1]
      exact List.mem_append_right _ (by simp)
    unfold suitesLoopGo
    rw [hget]
    dsimp only
    by_cases hx : hasPfx nm (L.get ⟨j, hjl⟩) = true
    · rw [if_pos hx, ih L (le_of_lt hjl) hdc]
      have hall_j1 : ∀ y ∈ L.take (j + 1), hasPfx nm y = true := by
        intro y hy
        obtain ⟨i, hi⟩ := List.mem_iff_get.mp hy
        have hib : (i : Nat) < j + 1 :=
          lt_of_lt_of_le i.2 (List.length_take_le _ _)
        have hilen : (i : Nat) < L.length := by omega
        have hgy : (L.take (j + 1)).get i = L.get ⟨(i : Nat), hilen⟩ := by
          simp [List.getElem_take]
        have hile : (i : Nat) ≤ j := by omega
        rw [← hi, hgy]
        exact hdc ⟨(i : Nat), hilen⟩ ⟨j, hjl⟩ hile hx
      have hall_j : ∀ y ∈ L.take j, hasPfx nm y = true := by
        intro y hy
        have hsub : L.take j = (L.take (j + 1)).take j := by
          rw [List.take_take]
          congr 1
          omega
        rw [hsub] at hy
        exact hall_j1 y (List.take_subset _ _ hy)
      rw [if_pos hall_j, if_pos hall_j1]
    · rw [if_neg hx]
      have hlen_take : (L.take j).length = j := by
        rw [List.length_take]
        omega
      have hdc2 : ∀ (i k : Fin (L.take j).length), (i : Nat) ≤ (k : Nat) →
          hasPfx nm ((L.take j).get k) = true →
          hasPfx nm ((L.take j).get i) = true := by
        intro i k hik hk
        have hib : (i : Nat) < j := lt_of_lt_of_le i.2 (List.length_take_le _ _)
        have hkb : (k : Nat) < j := lt_of_lt_of_le k.2 (List.length_take_le _ _)
        have hi2 : (i : Nat) < L.length := by omega
        have hk2 : (k : Nat) < L.length := by omega
        have e1 : (L.take j).get i = L.get ⟨(i : Nat), hi2⟩ := by
          simp [List.getElem_take]
        have e2 : (L.take j).get k = L.get ⟨(k : Nat), hk2⟩ := by
          simp [List.getElem_take]
        rw [e1]
        rw [e2] at hk
        exact hdc _ _ hik hk
      rw [ih (L.take j) (le_of_eq hlen_take.symm) hdc2]
      have htt : (L.take j).take j = L.take j :=
        List.take_of_length_le (le_of_eq hlen_take)
      have hxf : hasPfx nm (L.get ⟨j, hjl⟩) = false := by
        cases hb : hasPfx nm (L.get ⟨j, hjl⟩)
        · rfl
        · exact absurd hb hx
      have hnot1 : ¬ ∀ y ∈ L.take (j + 1), hasPfx nm y = true := by
        intro hall
        exact hx (hall _ hxmem)
      rw [if_neg hnot1]
      by_cases hallj : ∀ y ∈ L.take j, hasPfx nm y = true
      · rw [if_pos (by rw [htt]; exact hallj)]
        have e1 : L.takeWhile (fun x => hasPfx nm x) = L.take j :=
          takeWhile_eq_take_of_all _ j L hjl hallj hxf
        have e2 : (L.take (j + 1)).dropWhile (fun x => hasPfx nm x) =
            [L.get ⟨j, hjl⟩] := by
          rw [htake1, dropWhile_append_of_all _ _ _ hallj,
            List.dropWhile_cons, hxf]
          simp
        rw [e1, e2]
        simp
      · rw [if_neg (by rw [htt]; exact hallj)]
        have e1 : L.takeWhile (fun x => hasPfx nm x) =
            (L.take j).takeWhile (fun x => hasPfx nm x) :=
          takeWhile_of_take_not_all _ j L hallj
        have e2 : (L.take (j + 1)).dropWhile (fun x => hasPfx nm x) =
            (L.take j).dropWhile (fun x => hasPfx nm x) ++
              [L.get ⟨j, hjl⟩] := by
          rw [htake1, dropWhile_append_of_not_all _ _ _ hallj]
        rw [e1, e2, htt]
        simp

theorem hasPfx_iff (s p : Str) : hasPfx s p = true ↔ p <+: s := by
  induction s generalizing p with
  | nil =>
    cases p with
    | nil => simp [hasPfx]
    | cons c cs => simp [hasPfx]
  | cons x xs ih =>
    cases p with
    | nil => simp [hasPfx]
    | cons c cs =>
      rw [hasPfx]
      rw [Bool.and_eq_true, decide_eq_true_eq, ih cs]
      constructor
      · rintro ⟨h1, r, hr⟩
        exact ⟨r, by rw [h1, List.cons_append, hr]⟩
      · intro h
        rcases h with ⟨r, hr⟩
        rw [List.cons_append] at hr
        injection hr with h1 h2
        exact ⟨h1.symm, ⟨r, h2⟩⟩

/-- Under the chain invariant, the literal loop behaves as the intended
"pop while not a prefix of the current name" operation. -/
theorem popSuites_spec (nm : Str) (ss : List Str)
    (hchain : List.Pairwise (fun x y => hasPfx y x = true) ss) :
    popSuites nm ss = (ss.takeWhile (fun x => hasPfx nm x),
      (ss.dropWhile (fun x => hasPfx nm x)).reverse.map
        (fun x => OutLine.testSuiteFinished (escape x))) := by
  have hdc : ∀ (i k : Fin ss.length), (i : Nat) ≤ (k : Nat) →
      hasPfx nm (ss.get k) = true → hasPfx nm (ss.get i) = true := by
    intro i k hik hk
    by_cases hlt : (i : Nat) < (k : Nat)
    · have hR := (List.pairwise_iff_get.mp hchain) i k hlt
      rw [hasPfx_iff] at hR hk ⊢
      exact hR.trans hk
    · have : i = k := by
        apply Fin.ext
        omega
      rw [this]
      exact hk
  unfold popSuites
  rw [suitesLoopGo_spec nm ss.length ss (le_refl _) hdc, List.take_length]
  by_cases hall : ∀ x ∈ ss, hasPfx nm x = true
  · rw [if_pos hall]
    have h1 : ss.takeWhile (fun x => hasPfx nm x) = ss :=
      List.takeWhile_eq_self_iff.mpr hall
    have h2 : ss.dropWhile (fun x => hasPfx nm x) = [] :=
      List.dropWhile_eq_nil_iff.mpr hall
    rw [h1, h2]
    rfl
  · rw [if_neg hall]

/-! ### The balance checker over emitted fragments -/

theorem checkerRun_append (a b : List OutLine) (stk : List Str) :
    checkerRun (a ++ b) stk =
      match checkerRun a stk with
      | none => none
      | some st => checkerRun b st := by
  induction a generalizing stk with
  | nil => rfl
  | cons e rest ih =>
    cases e with
    | testSuiteStarted n => exact ih _
    | testSuiteFinished n =>
      cases stk with
      | nil => rfl
      | cons m stk2 =>
        show (if m = n then checkerRun (rest ++ b) stk2 else none) =
          (match (if m = n then checkerRun rest stk2 else none) with
           | none => none
           | some st => checkerRun b st)
        by_cases hm : m = n
        · rw [if_pos hm, if_pos hm]
          exact ih _
        · rw [if_neg hm, if_neg hm]
    | testStarted ts n => exact ih _
    | raw s => exact ih _
    | testIgnored ts n => exact ih _
    | testFailed ts n msg d => exact ih _
    | testFinished ts n d => exact ih _

theorem checkerRun_outputTest (aN : Str) (now : Nat) (t : GoTest)
    (stk : List Str) : checkerRun (outputTest aN now t) stk = some stk := by
  unfold outputTest
  dsimp only
  split
  · rfl
  · split
    · rfl
    · split
      · rfl
      · split
        · rfl
        · rfl

theorem checkerRun_finishes (xs : List Str) (rest : List Str) :
    checkerRun (xs.map (fun x => OutLine.testSuiteFinished (escape x)))
      (xs.map escape ++ rest) = some rest := by
  induction xs with
  | nil => rfl
  | cons x xs ih =>
    show (if escape x = escape x then
        checkerRun (xs.map (fun y => OutLine.testSuiteFinished (escape y)))
          (xs.map escape ++ rest)
      else none) = some rest
    rw [if_pos rfl]
    exact ih

theorem checkerRun_flushTestsList (aN : Str) :
    ∀ (ts : TMap) (c : Nat) (stk : List Str),
      checkerRun (flushTestsList aN c ts).1 stk = some stk := by
  intro ts
  induction ts with
  | nil => intro c stk; rfl
  | cons kv rest ih =>
    intro c stk
    obtain ⟨k, t⟩ := kv
    unfold flushTestsList
    dsimp only
    rw [checkerRun_append, checkerRun_outputTest]
    exact ih _ _

/-- The suite-balance invariant: replaying the output so far leaves exactly
the escaped open-suite stack on the checker, and the open-suite stack is a
prefix chain (each entry a string prefix of the entries above it). -/
def inv5 (s : PState) : Prop :=
  checkerRun s.out [] = some (s.suites.reverse.map escape) ∧
  List.Pairwise (fun x y => hasPfx y x = true) s.suites

theorem inv5_initState : inv5 initState := ⟨rfl, List.Pairwise.nil⟩

theorem inv5_same (s s2 : PState) (h1 : s2.out = s.out)
    (h2 : s2.suites = s.suites) (hinv : inv5 s) : inv5 s2 :=
  ⟨by rw [h1, h2]; exact hinv.1, by rw [h2]; exact hinv.2⟩

theorem inv5_finalizeCur (a : Str) (s : PState) (t : GoTest)
    (hinv : inv5 s) : inv5 (finalizeCur a s t) := by
  obtain ⟨hch, hpw⟩ := hinv
  have hpop := popSuites_spec t.name s.suites hpw
  have hstack : s.suites.reverse.map escape =
      ((s.suites.dropWhile (fun x => hasPfx t.name x)).reverse.map escape) ++
        ((s.suites.takeWhile (fun x => hasPfx t.name x)).reverse.map escape) := by
    conv_lhs =>
      rw [← List.takeWhile_append_dropWhile
        (p := fun x => hasPfx t.name x) (l := s.suites)]
    rw [List.reverse_append, List.map_append]
  have hptw : List.Pairwise (fun x y => hasPfx y x = true)
      (s.suites.takeWhile (fun x => hasPfx t.name x)) :=
    hpw.sublist (List.takeWhile_sublist _)
  constructor
  · rw [finalizeCur_out, checkerRun_append, hch]
    dsimp only
    rw [finalizeCur_suites, hpop]
    dsimp only
    rw [checkerRun_append, checkerRun_append, hstack, checkerRun_finishes]
    dsimp only
    cases ht : t.suite with
    | false =>
      rw [if_neg (by simp)]
      show (match checkerRun []
          ((s.suites.takeWhile (fun x => hasPfx t.name x)).reverse.map escape)
        with
        | none => none
        | some st => checkerRun (outputTest a s.clock t) st) = _
      rw [checkerRun]
      dsimp only
      rw [checkerRun_outputTest]
      rw [if_neg (by simp)]
      rw [List.append_nil]
    | true =>
      rw [if_pos rfl]
      show (match checkerRun [OutLine.testSuiteStarted (escape t.name)]
          ((s.suites.takeWhile (fun x => hasPfx t.name x)).reverse.map escape)
        with
        | none => none
        | some st => checkerRun (outputTest a s.clock t) st) = _
      rw [show checkerRun [OutLine.testSuiteStarted (escape t.name)]
          ((s.suites.takeWhile (fun x => hasPfx t.name x)).reverse.map escape) =
          some (escape t.name ::
            (s.suites.takeWhile (fun x => hasPfx t.name x)).reverse.map escape)
        from rfl]
      dsimp only
      rw [checkerRun_outputTest, if_pos rfl]
      rw [List.reverse_append]
      simp
  · rw [finalizeCur_suites, hpop]
    dsimp only
    cases ht : t.suite with
    | false =>
      rw [if_neg (by simp), List.append_nil]
      exact hptw
    | true =>
      rw [if_pos rfl, List.pairwise_append]
      refine ⟨hptw, List.pairwise_singleton _ _, ?_⟩
      intro x hx b hb
      rw [List.mem_singleton] at hb
      subst hb
      exact List.mem_takeWhile_imp hx

theorem inv5_finalizeMaybe (a : Str) (s : PState) (b : Bool)
    (hinv : inv5 s) : inv5 (finalizeMaybe a s b) := by
  unfold finalizeMaybe
  cases s.cur with
  | none => exact hinv
  | some t =>
    dsimp only
    split
    · exact inv5_finalizeCur a s t hinv
    · exact hinv

theorem inv5_fetchOrCreate (s : PState) (nm : Str) (hinv : inv5 s) :
    inv5 (fetchOrCreate s nm).1 :=
  inv5_same s _ (fetchOrCreate_fst_out s nm) (by
    unfold fetchOrCreate
    cases lookupT s.tests nm <;> simp) hinv

theorem inv5_processLine (a : Str) (s : PState) (l : Str)
    (hinv : inv5 s) : inv5 (processLine a s l) := by
  have hinv1 : ∀ b, inv5 (finalizeMaybe a s b) :=
    fun b => inv5_finalizeMaybe a s b hinv
  unfold processLine
  cases matchRun l with
  | some nm =>
    exact inv5_same _ _ (newTest_fst_out _ nm) (newTest_fst_suites _ nm) (hinv1 _)
  | none =>
    cases matchEnd l with
    | some em =>
      dsimp only
      exact inv5_same _ _ (fetchOrCreate_fst_out _ em.name)
        (by unfold fetchOrCreate; cases lookupT _ em.name <;> simp)
        (hinv1 _)
    | none =>
      dsimp only
      split
      · exact inv5_same _ _ rfl rfl (hinv1 _)
      · simp only [Option.isSome_none, Bool.false_or]
        cases hcur : (finalizeMaybe a s (matchPkg l)).cur with
        | some t =>
          dsimp only
          split
          · exact inv5_same _ _ rfl rfl (hinv1 _)
          · split
            · exact inv5_same _ _ rfl rfl (hinv1 _)
            · exact inv5_same _ _ rfl rfl (hinv1 _)
        | none =>
          constructor
          · show checkerRun ((finalizeMaybe a s (matchPkg l)).out ++
              [OutLine.raw l]) [] = _
            rw [checkerRun_append, (hinv1 (matchPkg l)).1]
            rfl
          · exact (hinv1 (matchPkg l)).2

theorem foldl_inv5 (a : Str) (ls : List Str) :
    ∀ s : PState, inv5 s → inv5 (ls.foldl (processLine a) s) := by
  induction ls with
  | nil => intro s h; exact h
  | cons l ls ih =>
    intro s h
    exact ih _ (inv5_processLine a s l h)

theorem inv5_flush_balanced (a : Str) (s : PState) (hinv : inv5 s) :
    checkerRun (flushState a s).out [] = some [] := by
  obtain ⟨hch, hpw⟩ := hinv
  have hfin : ∀ stk0 : List Str,
      checkerRun (s.suites.reverse.map
        (fun nm => OutLine.testSuiteFinished (escape nm)))
        (s.suites.reverse.map escape) = some [] := by
    intro _
    have h2 := checkerRun_finishes s.suites.reverse []
    rw [List.append_nil] at h2
    exact h2
  unfold flushState
  cases hc : s.cur with
  | none =>
    dsimp only
    rw [checkerRun_append, checkerRun_append, checkerRun_append, hch]
    dsimp only
    rw [hfin []]
    dsimp only
    rw [checkerRun_flushTestsList]
    rfl
  | some t =>
    dsimp only
    rw [checkerRun_append, checkerRun_append, checkerRun_append,
      checkerRun_append, hch]
    dsimp only
    rw [checkerRun_outputTest]
    dsimp only
    rw [hfin []]
    dsimp only
    rw [checkerRun_flushTestsList]
    rfl

/--
**C5.** In the emitted output of any input stream, suite events are perfectly
balanced and well nested: replaying the whole output against a stack checker —
pushing on each `testSuiteStarted` and popping on a `testSuiteFinished` only
when its name matches the most recent unmatched start — succeeds and ends with
an empty stack.  Hence every `testSuiteStarted` has exactly one matching
`testSuiteFinished`, and the finishes occur in strict reverse (LIFO) order of
their matching starts.
-/
theorem claim5_suite_balance (a : Str) (lines : List Str) :
    checkerRun (processReader a lines) [] = some [] :=
  inv5_flush_balanced a (runLines a lines)
    (foldl_inv5 a lines initState inv5_initState)
